import Mathlib

/-!
Verification development for the `finance-bot` web application
(`web_finbot.py`).  The Python functions are shallowly embedded over
`List Char` strings: file contents and the JSON layer are made explicit,
`re`-based substitutions become recursive scanners (with a fuel argument
bounding the number of scanning steps by the input length), and Python
exceptions become `Except`/`Option` values.  The character class `\s` is
modelled by the ASCII whitespace characters.
-/

namespace FinBot

abbrev Str := List Char

/-- Python `\s` (ASCII part): space, tab, newline, carriage return,
vertical tab, form feed. -/
def isPySpace (c : Char) : Bool :=
  c = ' ' || c = '\t' || c = '\n' || c = '\r' || c = Char.ofNat 11 || c = Char.ofNat 12

/-- Python `str.strip()`: remove leading and trailing whitespace. -/
def pyStrip (s : Str) : Str :=
  ((s.dropWhile isPySpace).reverse.dropWhile isPySpace).reverse

/-- Characters kept by `safe_filename`: the class `[a-zA-Z0-9_.-]`. -/
def safeChar (c : Char) : Bool :=
  ('a' ≤ c && c ≤ 'z') || ('A' ≤ c && c ≤ 'Z') || ('0' ≤ c && c ≤ '9') ||
    c = '_' || c = '.' || c = '-'

/-- `safe_filename(name)`: `re.sub(r'[^a-zA-Z0-9_.-]', '_', name or "")`.
A single-character class substitution is a character map; `name or ""`
turns a missing (`None`) name into the empty string. -/
def safe_filename (name : Option Str) : Str :=
  (name.getD []).map (fun c => if safeChar c then c else '_')

/-- The file that stores a chat session: `f"{safe_filename(chat_id)}.json"`. -/
def session_file (chat_id : Str) : Str :=
  safe_filename (some chat_id) ++ ".json".toList

/-- `pin_chat` body: `remove` drops the first occurrence, `insert(0, ...)`
puts the id at the front. -/
def pin_chat (chat_id : Str) (pinned_ids : List Str) : List Str :=
  if chat_id ∈ pinned_ids then pinned_ids.erase chat_id else chat_id :: pinned_ids

/-- `delete_chat` effect on the store: remove the session file from the
chat directory (when present) and drop the id from the pinned list (when
present).  The state is the directory listing paired with the pinned
list. -/
def delete_chat (chat_id : Str) (files : List Str) (pinned_ids : List Str) :
    List Str × List Str :=
  ((if session_file chat_id ∈ files then files.erase (session_file chat_id) else files),
   (if chat_id ∈ pinned_ids then pinned_ids.erase chat_id else pinned_ids))

/-- JSON values, as far as the store needs them. -/
inductive PJson where
  | jnull : PJson
  | jstr : Str → PJson
  | jnum : Int → PJson
  | jarr : List PJson → PJson
  | jobj : List (Str × PJson) → PJson

/-- Outcome of reading a file: contents, `FileNotFoundError`, or some
other `OSError`. -/
inductive ReadOutcome where
  | ok : Str → ReadOutcome
  | missing : ReadOutcome
  | err : ReadOutcome

/-- Name of the pinned-ids file (relative to the chat directory). -/
def pinned_chats_file : Str := "pinned_chats.json".toList

/-- `load_pinned_chats()`: missing file yields `[]`; a read inside
`try` falling to `JSONDecodeError`/`FileNotFoundError` yields `[]`; any
other exception propagates (only those two are caught). -/
def load_pinned_chats (fs : Str → ReadOutcome) (parseJson : Str → Option PJson) :
    Except Unit PJson :=
  match fs pinned_chats_file with
  | .missing => .ok (PJson.jarr [])
  | .err => .error ()
  | .ok content =>
    match parseJson content with
    | none => .ok (PJson.jarr [])
    | some v => .ok v

/-- `load_chat_history(chat_id)`: the whole body is inside
`try ... except Exception: return []`, so every failure mode falls back
to the empty list. -/
def load_chat_history (chat_id : Str) (fs : Str → ReadOutcome)
    (parseJson : Str → Option PJson) : PJson :=
  match fs (session_file chat_id) with
  | .ok content =>
    match parseJson content with
    | some v => v
    | none => PJson.jarr []
  | .missing => PJson.jarr []
  | .err => PJson.jarr []

/-- The session stems gathered by `list_chat_sessions`: the `.json`
entries of the chat directory other than `pinned_chats.json`, with the
`.json` suffix cut off (`fname[:-5]`). -/
def dir_sessions (listing : List Str) : List Str :=
  (listing.filter (fun fname =>
    ".json".toList.isSuffixOf fname && fname != pinned_chats_file)).map
    (fun fname => fname.take (fname.length - 5))

/-- `list_chat_sessions()`: pinned ids that have a session come first
(in pinned order), the remaining sessions follow, sorted by modification
time, newest first. -/
def list_chat_sessions (listing : List Str) (pinned_ids : List Str)
    (mtime : Str → Int) : List Str :=
  let sessions := dir_sessions listing
  let pinned_sessions := pinned_ids.filter (fun cid => sessions.contains cid)
  let unpinned_sessions := sessions.filter (fun cid => !(pinned_ids.contains cid))
  pinned_sessions ++ unpinned_sessions.mergeSort (fun a b => mtime b ≤ mtime a)

/-- The user message appended by the POST handler:
`{"role": "user", "text": user_query}`. -/
def user_message (user_query : Str) : List (Str × PJson) :=
  [("role".toList, PJson.jstr "user".toList), ("text".toList, PJson.jstr user_query)]

/-- The bot message appended by the POST handler:
`{"role": "bot", "text": bot_response, "image": image_path}`. -/
def bot_message (bot_response : Str) (image_path : Option Str) : List (Str × PJson) :=
  [("role".toList, PJson.jstr "bot".toList), ("text".toList, PJson.jstr bot_response),
   ("image".toList, match image_path with | some p => PJson.jstr p | none => PJson.jnull)]

/-- The keys of a message object, in order. -/
def message_keys (m : List (Str × PJson)) : List Str := m.map Prod.fst

/-- Effect of one POST request on the persisted history of the current
session.  The stripped query must be non-empty for anything to happen;
the save happens at the end of the `try` block, after both appends, so
when building the bot reply raises, the file is left untouched (the
fallback bot bubble is only appended to the in-memory list). -/
def post_update (old_history : List (List (Str × PJson))) (user_query_raw : Str)
    (bot_outcome : Except Unit (Str × Option Str)) : List (List (Str × PJson)) :=
  let user_query := pyStrip user_query_raw
  if user_query = [] then old_history
  else
    match bot_outcome with
    | .ok (resp, img) => old_history ++ [user_message user_query, bot_message resp img]
    | .error _ => old_history

/-! ## The markdown renderer

`markdown_to_html` first HTML-escapes its input (markupsafe `escape`),
then applies a fixed chain of `re.sub` substitutions.  Each substitution
is embedded as a scanner over `List Char` that walks the string from the
left, attempting the pattern at exactly the positions where the Python
regex engine can match, emitting the replacement on success and one
character on failure.  A `Nat` fuel argument (instantiated with the
string length, an upper bound on the number of scanning steps) makes the
recursion structural. -/

/-- markupsafe `escape` on one character: `&`, `<`, `>`, the apostrophe
and the double quote become entities. -/
def escChar (c : Char) : Str :=
  if c = '&' then ['&', 'a', 'm', 'p', ';']
  else if c = '<' then ['&', 'l', 't', ';']
  else if c = '>' then ['&', 'g', 't', ';']
  else if c = Char.ofNat 39 then ['&', '#', '3', '9', ';']
  else if c = Char.ofNat 34 then ['&', '#', '3', '4', ';']
  else [c]

/-- markupsafe `escape`. -/
def escape : Str → Str
  | [] => []
  | c :: t => escChar c ++ escape t

/-- `text.replace("\r\n", "\n")`: left-to-right, non-overlapping. -/
def replaceCRLF : Nat → Str → Str
  | 0, s => s
  | _ + 1, [] => []
  | fuel + 1, c :: t =>
    if c = '\r' && t.head? == some '\n' then '\n' :: replaceCRLF fuel t.tail
    else c :: replaceCRLF fuel t

/-- `text.replace("\r", "\n")`: a single-character replace is a map. -/
def replaceCR (s : Str) : Str := s.map (fun c => if c = '\r' then '\n' else c)

/-- One heading pass, `re.sub(r'^\s*MARKER (.*)$', r'<hN>\1</hN>', text,
flags=re.MULTILINE)` with `MARKER ` passed as `marker`.  The pattern can
only start at a line start; `\s*` is the maximal whitespace run (which
may cross newlines), the capture runs to the end of the line. -/
def headingSub (marker tagOpen tagClose : Str) : Nat → Bool → Str → Str
  | 0, _, s => s
  | _ + 1, _, [] => []
  | fuel + 1, lineStart, c :: t =>
    if lineStart then
      if marker.isPrefixOf ((c :: t).dropWhile isPySpace) then
        tagOpen ++
          ((((c :: t).dropWhile isPySpace).drop marker.length).takeWhile
            (fun x => x ≠ '\n')) ++
          tagClose ++
          headingSub marker tagOpen tagClose fuel false
            ((((c :: t).dropWhile isPySpace).drop marker.length).dropWhile
              (fun x => x ≠ '\n'))
      else c :: headingSub marker tagOpen tagClose fuel (c = '\n') t
    else c :: headingSub marker tagOpen tagClose fuel (c = '\n') t

/-- Does the horizontal-rule pattern end here (`(?:\n|$)` after the
dashes)? -/
def nlOrEnd (s : Str) : Bool := s.isEmpty || s.head? == some '\n' 

/-- `re.sub(r'(?:^|\n)-{3,}(?:\n|$)', r'\n<hr>\n', text, MULTILINE)`.
At a line start the zero-width `^` alternative is tried first; a
matching `\n` alternative consumes the newline.  The trailing newline,
when present, is consumed with the match (so the position after it is a
line start of the original string). -/
def hrSub : Nat → Bool → Str → Str
  | 0, _, s => s
  | _ + 1, _, [] => []
  | fuel + 1, lineStart, c :: t =>
    if lineStart && decide (3 ≤ ((c :: t).takeWhile (fun x => x = '-')).length) &&
        nlOrEnd ((c :: t).dropWhile (fun x => x = '-')) then
      ['\n', '<', 'h', 'r', '>', '\n'] ++
        hrSub fuel true (((c :: t).dropWhile (fun x => x = '-')).tail)
    else if c = '\n' && decide (3 ≤ (t.takeWhile (fun x => x = '-')).length) &&
        nlOrEnd (t.dropWhile (fun x => x = '-')) then
      ['\n', '<', 'h', 'r', '>', '\n'] ++
        hrSub fuel true ((t.dropWhile (fun x => x = '-')).tail)
    else c :: hrSub fuel (c = '\n') t

/-- Lazy search for `(.+?)DELIM` (no newline in the content, content
non-empty): returns the shortest content together with what follows the
closing delimiter. -/
def delimClose (delim : Str) : Str → Option (Str × Str)
  | [] => none
  | c :: t =>
    if c = '\n' then none
    else if delim.isPrefixOf t then some ([c], t.drop delim.length)
    else
      match delimClose delim t with
      | some (content, rest) => some (c :: content, rest)
      | none => none

/-- `re.sub(r'DELIM(.+?)DELIM', r'<tag>\1</tag>', text)` for the bold
(`**`) and italic (`*`) passes. -/
def delimSub (delim tagOpen tagClose : Str) : Nat → Str → Str
  | 0, s => s
  | _ + 1, [] => []
  | fuel + 1, c :: t =>
    if delim.isPrefixOf (c :: t) then
      match delimClose delim (t.drop (delim.length - 1)) with
      | some (content, rest) =>
        tagOpen ++ content ++ tagClose ++ delimSub delim tagOpen tagClose fuel rest
      | none => c :: delimSub delim tagOpen tagClose fuel t
    else c :: delimSub delim tagOpen tagClose fuel t

/-- `re.sub(r'^\s*-\s+(.*\S.*)$', r'<li>\1</li>', text, MULTILINE)`.
At a line start: maximal `\s*`, a dash, a non-empty maximal `\s+` (both
runs may cross newlines), then the rest of the current line, which
starts with a non-whitespace character and is captured whole. -/
def liSub : Nat → Bool → Str → Str
  | 0, _, s => s
  | _ + 1, _, [] => []
  | fuel + 1, lineStart, c :: t =>
    if lineStart && ((c :: t).dropWhile isPySpace).head? == some '-' &&
        !((((c :: t).dropWhile isPySpace).tail.takeWhile isPySpace).isEmpty) &&
        !((((c :: t).dropWhile isPySpace).tail.dropWhile isPySpace).isEmpty) then
      ['<', 'l', 'i', '>'] ++
        ((((c :: t).dropWhile isPySpace).tail.dropWhile isPySpace).takeWhile
          (fun x => x ≠ '\n')) ++
        ['<', '/', 'l', 'i', '>'] ++
        liSub fuel false
          ((((c :: t).dropWhile isPySpace).tail.dropWhile isPySpace).dropWhile
            (fun x => x ≠ '\n'))
    else c :: liSub fuel (c = '\n') t

/-- Lazy search for `(.*?)</li>` (DOTALL, so the content may contain
newlines, and it may be empty). -/
def liClose : Str → Option (Str × Str)
  | [] => none
  | c :: t =>
    if (['<', '/', 'l', 'i', '>'] : Str).isPrefixOf (c :: t) then some ([], (c :: t).drop 5)
    else
      match liClose t with
      | some (content, rest) => some (c :: content, rest)
      | none => none

/-- One or more `(?:<li>.*?</li>\n?)` elements starting here, greedily;
returns the matched text and the rest. -/
def ulChain : Nat → Str → Option (Str × Str)
  | 0, _ => none
  | fuel + 1, s =>
    if (['<', 'l', 'i', '>'] : Str).isPrefixOf s then
      match liClose (s.drop 4) with
      | some (content, rest) =>
        let elem := ['<', 'l', 'i', '>'] ++ content ++ ['<', '/', 'l', 'i', '>']
        if rest.head? == some '\n' then
          match ulChain fuel rest.tail with
          | some (chain, rest3) => some (elem ++ '\n' :: chain, rest3)
          | none => some (elem ++ ['\n'], rest.tail)
        else
          match ulChain fuel rest with
          | some (chain, rest3) => some (elem ++ chain, rest3)
          | none => some (elem, rest)
      | none => none
    else none

/-- `re.sub(r'(?:^|\n)(?:<li>.*?</li>\n?)+', ul_wrap, text, DOTALL)`:
`ul_wrap` puts `<ul>...</ul>` around the whole match (including the
leading newline when the `\n` alternative matched; `^` is only the
start of the string, DOTALL has no MULTILINE). -/
def ulSub : Nat → Bool → Str → Str
  | 0, _, s => s
  | _ + 1, _, [] => []
  | fuel + 1, atStart, c :: t =>
    if atStart then
      match ulChain (c :: t).length (c :: t) with
      | some (chain, rest) =>
        ['<', 'u', 'l', '>'] ++ chain ++ ['<', '/', 'u', 'l', '>'] ++ ulSub fuel false rest
      | none =>
        if c = '\n' then
          match ulChain t.length t with
          | some (chain, rest) =>
            ['<', 'u', 'l', '>'] ++ '\n' :: chain ++ ['<', '/', 'u', 'l', '>'] ++
              ulSub fuel false rest
          | none => c :: ulSub fuel false t
        else c :: ulSub fuel false t
    else
      if c = '\n' then
        match ulChain t.length t with
        | some (chain, rest) =>
          ['<', 'u', 'l', '>'] ++ '\n' :: chain ++ ['<', '/', 'u', 'l', '>'] ++
            ulSub fuel false rest
        | none => c :: ulSub fuel false t
      else c :: ulSub fuel false t

/-- `re.sub(r'\n{2,}', r'<br>', text)`: a maximal newline run of length
at least two becomes `<br>`. -/
def brSub : Nat → Str → Str
  | 0, s => s
  | _ + 1, [] => []
  | fuel + 1, c :: t =>
    if c = '\n' && t.head? == some '\n' then
      ['<', 'b', 'r', '>'] ++ brSub fuel ((c :: t).dropWhile (fun x => x = '\n'))
    else c :: brSub fuel t

/-- The substitution chain of `markdown_to_html`, applied after the
HTML escape: newline normalisation, `###` and `##` headings, horizontal
rules, bold, italic, list items, list wrapping, `<br>`. -/
def md_stages (s : Str) : Str :=
  let s1 := replaceCR (replaceCRLF s.length s)
  let s2 := headingSub "### ".toList "<h3>".toList "</h3>".toList s1.length true s1
  let s3 := headingSub "## ".toList "<h2>".toList "</h2>".toList s2.length true s2
  let s4 := hrSub s3.length true s3
  let s5 := delimSub "**".toList "<b>".toList "</b>".toList s4.length s4
  let s6 := delimSub "*".toList "<i>".toList "</i>".toList s5.length s5
  let s7 := liSub s6.length true s6
  let s8 := ulSub s7.length true s7
  brSub s8.length s8

/-- `markdown_to_html(text)`: empty input short-circuits to `""`;
otherwise the input is escaped first and the substitutions run on the
escaped text (`re.sub` demotes the `Markup` to a plain string, `Markup`
at the end adds no escaping). -/
def markdown_to_html (text : Str) : Str :=
  if text = [] then [] else md_stages (escape text)

/-! ## The chatbot response -/

/-- A Python value as it comes out of `plan.get("arguments")`: either a
dict (of string-rendered values) or something else. -/
inductive PyVal where
  | dict : List (Str × Str) → PyVal
  | other : PyVal

/-- `plan.get("arguments") or {}` followed by the `isinstance(..., dict)`
check: anything that is not a dict becomes the empty dict. -/
def normalize_arguments : Option PyVal → List (Str × Str)
  | some (.dict kvs) => kvs
  | _ => []

/-- The plan returned by `get_tool_call` (after `or {}`): an optional
tool name and optional arguments. -/
structure ToolPlan where
  tool_name : Option Str
  arguments : Option PyVal

/-- The keys of the tool belt dispatch table, in source order. -/
def tool_belt_names : List Str :=
  ["get_summary", "get_financial_total", "get_top_spending_category",
   "find_peak_spending_day_for_category", "visualize_spending",
   "find_transaction_date", "get_financial_advice", "add_transaction",
   "get_balance", "check_budgets", "add_budget", "check_goals",
   "contribute_to_goal", "calculate_savings_plan", "add_savings_goal",
   "identify_unnecessary_spending"].map String.toList

/-- `if "data" not in arguments: arguments["data"] = current_data`. -/
def ensure_data (arguments : List (Str × Str)) (current_data : Str) :
    List (Str × Str) :=
  if (arguments.map Prod.fst).contains "data".toList then arguments
  else arguments ++ [("data".toList, current_data)]

/-- The `response` string chosen by `chatbot_response` once a plan is
available: the greeting branch, the dispatch through the tool belt
(where a raised exception becomes an inline error string), or the
fallback message for an unknown tool.  `exec` stands for the external
tool functions (`Except.error` is a raised exception, rendered with
`str(e)`). -/
def chatbot_response_core (tool_name : Option Str)
    (arguments : List (Str × Str)) (current_data : Str)
    (exec : Str → List (Str × Str) → Except Str Str) : Str :=
  match tool_name with
  | some n =>
    if n = "greeting_response".toList then
      (arguments.lookup "response".toList).getD "Hi! How can I help?".toList
    else if tool_belt_names.contains n then
      match exec n (ensure_data arguments current_data) with
      | .ok r => r
      | .error e => "An error occurred while running the tool: ".toList ++ e
    else "I\x27m not sure how to do that. Please try rephrasing.".toList
  | none => "I\x27m not sure how to do that. Please try rephrasing.".toList

/-- `chatbot_response(user_query, current_data)`: tool planning may
itself raise (rendered as an inline error), otherwise the chosen
response string is rendered through `markdown_to_html`. -/
def chatbot_response (plan_result : Except Str ToolPlan) (current_data : Str)
    (exec : Str → List (Str × Str) → Except Str Str) : Str :=
  match plan_result with
  | .error e => markdown_to_html ("**Error planning tool call:** ".toList ++ e)
  | .ok plan =>
    markdown_to_html
      (chatbot_response_core plan.tool_name (normalize_arguments plan.arguments)
        current_data exec)

/-! ## Counting escaped characters

`countSub p s` counts the positions of `s` where the pattern `p` starts
(for the entity patterns below, occurrences cannot overlap, so this is
plain substring counting).  `entOk s` says every `&` of `s` opens one of
the five entities `escape` can produce; it holds for escaped text and is
preserved by every substitution pass. -/

/-- Number of positions where `p` occurs in `s`. -/
def countSub (p : Str) : Str → Nat
  | [] => 0
  | c :: t => (if p <+: (c :: t) then 1 else 0) + countSub p t

/-- The escaped form of `<`, that is `&lt;`. -/
def ampLt : Str := ['&', 'l', 't', ';']

/-- The escaped form of `>`, that is `&gt;`. -/
def ampGt : Str := ['&', 'g', 't', ';']

/-- The escaped form of `&`, that is `&amp;`. -/
def ampAmp : Str := ['&', 'a', 'm', 'p', ';']

/-- The entity bodies (`lt;`, `gt;`, `amp;`) whose counts C7 tracks. -/
def tails3 : List Str := [['l', 't', ';'], ['g', 't', ';'], ['a', 'm', 'p', ';']]

/-- All entity bodies `escape` can produce after a `&` (`lt;`, `gt;`,
`amp;`, `#39;`, `#34;`). -/
def tails5 : List Str :=
  [['l', 't', ';'], ['g', 't', ';'], ['a', 'm', 'p', ';'],
   ['#', '3', '9', ';'], ['#', '3', '4', ';']]

/-- Every character that can occur in an entity body. -/
def tailChars : List Char := ['l', 't', ';', 'g', 'a', 'm', 'p', '#', '3', '4', '9']

/-- Does one of the five entity bodies start here? -/
def entTail (t : Str) : Bool := tails5.any (fun T => T.isPrefixOf t)

/-- Every `&` of the string opens an entity. -/
def entOk : Str → Bool
  | [] => true
  | c :: t => ((c != '&') || entTail t) && entOk t

/-- The head of the string (if any) can neither continue an entity body
nor start one. -/
def headSafe : Str → Prop
  | [] => True
  | c :: _ => c ∉ tailChars ∧ c ≠ '&'

/-- No occurrence of `p` straddles the boundary between `A` and `B`. -/
def NoStraddle (p A B : Str) : Prop :=
  ∀ T, T <:+ A → T ≠ [] → T.length < p.length → ¬ (T <+: p ∧ (p.drop T.length) <+: B)

/-! ## Pinning, deleting, sanitising -/

/-- `pin_chat` keeps the pinned list duplicate-free. -/
theorem pin_chat_nodup (chat_id : Str) (l : List Str) (h : l.Nodup) :
    (pin_chat chat_id l).Nodup := by
  unfold pin_chat
  by_cases hm : chat_id ∈ l
  · rw [if_pos hm]; exact h.erase chat_id
  · rw [if_neg hm]; exact List.nodup_cons.2 ⟨hm, h⟩

/-- Claim C1: on a duplicate-free pinned list, `pin_chat` toggles the
pinned status of an id: an id already in the list is removed, and
applying `pin_chat` twice restores the id's membership status. -/
theorem pin_chat_toggle (chat_id : Str) (l : List Str) (h : l.Nodup) :
    (chat_id ∈ l → chat_id ∉ pin_chat chat_id l) ∧
      (chat_id ∈ pin_chat chat_id (pin_chat chat_id l) ↔ chat_id ∈ l) := by
  by_cases hm : chat_id ∈ l
  · have h1 : pin_chat chat_id l = l.erase chat_id := by unfold pin_chat; exact if_pos hm
    have h2 : chat_id ∉ l.erase chat_id := by
      intro hx; exact (h.mem_erase_iff.1 hx).1 rfl
    refine ⟨fun _ => h1 ▸ h2, ?_⟩
    have h3 : pin_chat chat_id (pin_chat chat_id l) = chat_id :: l.erase chat_id := by
      rw [h1]; unfold pin_chat; exact if_neg h2
    rw [h3]; simp [hm]
  · have h1 : pin_chat chat_id l = chat_id :: l := by unfold pin_chat; exact if_neg hm
    refine ⟨fun hx => absurd hx hm, ?_⟩
    have h2 : pin_chat chat_id (pin_chat chat_id l) = l := by
      rw [h1]; unfold pin_chat
      rw [if_pos (List.mem_cons_self _ _), List.erase_cons_head]
    rw [h2]

/-- Witness for C1 at a concrete pinned list. -/
theorem pin_chat_toggle_witness :
    ("a".toList ∈ ["a".toList, "b".toList] →
        "a".toList ∉ pin_chat "a".toList ["a".toList, "b".toList]) ∧
      ("a".toList ∈ pin_chat "a".toList (pin_chat "a".toList ["a".toList, "b".toList]) ↔
        "a".toList ∈ ["a".toList, "b".toList]) :=
  pin_chat_toggle "a".toList ["a".toList, "b".toList] (by decide)

/-- Claim C2: pinning an id that is not yet pinned puts it at the front
of the pinned list and leaves the rest of the list unchanged. -/
theorem pin_chat_inserts_front (chat_id : Str) (l : List Str) (h : chat_id ∉ l) :
    pin_chat chat_id l = chat_id :: l := by
  unfold pin_chat; exact if_neg h

/-- Witness for C2. -/
theorem pin_chat_inserts_front_witness :
    pin_chat "a".toList ["b".toList, "c".toList] = "a".toList :: ["b".toList, "c".toList] :=
  pin_chat_inserts_front "a".toList ["b".toList, "c".toList] (by decide)

/-- Claim C3: after `delete_chat`, the session file of the id is gone
from the chat directory, the id is no longer pinned, and the other
pinned ids are kept in their original order. -/
theorem delete_chat_removes (chat_id : Str) (files pinned_ids : List Str)
    (hf : files.Nodup) (hp : pinned_ids.Nodup) :
    session_file chat_id ∉ (delete_chat chat_id files pinned_ids).1 ∧
      chat_id ∉ (delete_chat chat_id files pinned_ids).2 ∧
      (delete_chat chat_id files pinned_ids).2 =
        pinned_ids.filter (fun x => x != chat_id) := by
  unfold delete_chat
  refine ⟨?_, ?_, ?_⟩
  · by_cases hm : session_file chat_id ∈ files
    · rw [if_pos hm]
      intro hx; exact (hf.mem_erase_iff.1 hx).1 rfl
    · rw [if_neg hm]; exact hm
  · by_cases hm : chat_id ∈ pinned_ids
    · simp only [if_pos hm]
      intro hx; exact (hp.mem_erase_iff.1 hx).1 rfl
    · simp only [if_neg hm]; exact hm
  · by_cases hm : chat_id ∈ pinned_ids
    · simp only [if_pos hm]
      exact hp.erase_eq_filter chat_id
    · simp only [if_neg hm]
      refine (List.filter_eq_self.2 ?_).symm
      intro a ha
      simp only [bne_iff_ne, ne_eq]
      intro he; exact hm (he ▸ ha)

/-- Witness for C3. -/
theorem delete_chat_removes_witness :
    session_file "a".toList ∉
        (delete_chat "a".toList ["a.json".toList] ["a".toList, "b".toList]).1 ∧
      "a".toList ∉ (delete_chat "a".toList ["a.json".toList] ["a".toList, "b".toList]).2 ∧
      (delete_chat "a".toList ["a.json".toList] ["a".toList, "b".toList]).2 =
        ["a".toList, "b".toList].filter (fun x => x != "a".toList) :=
  delete_chat_removes "a".toList ["a.json".toList] ["a".toList, "b".toList]
    (by decide) (by decide)

/-- Claim C9: `safe_filename` only ever outputs characters of the class
`[A-Za-z0-9_.-]` (in particular no path separator), is idempotent, and
treats a missing name like the empty string. -/
theorem safe_filename_safe (name : Option Str) :
    (∀ c ∈ safe_filename name, safeChar c) ∧
      ('/' ∉ safe_filename name ∧ '\\' ∉ safe_filename name) ∧
      safe_filename (some (safe_filename name)) = safe_filename name ∧
      safe_filename none = safe_filename (some []) := by
  have hall : ∀ c ∈ safe_filename name, safeChar c := by
    intro c hc
    unfold safe_filename at hc
    rcases List.mem_map.1 hc with ⟨a, _, ha⟩
    by_cases hs : safeChar a
    · rw [if_pos hs] at ha; exact ha ▸ hs
    · rw [if_neg hs] at ha; rw [← ha]; decide
  refine ⟨hall, ⟨?_, ?_⟩, ?_, rfl⟩
  · intro hx; have := hall _ hx; simp [safeChar] at this
  · intro hx; have := hall _ hx; simp [safeChar] at this
  · unfold safe_filename
    simp only [Option.getD_some, List.map_map]
    refine List.map_congr_left ?_
    intro a _
    by_cases hs : safeChar a
    · simp [Function.comp, if_pos hs]
    · simp only [Function.comp_apply, if_neg hs]
      decide

/-! ## Read fallbacks and message persistence -/

/-- Claim C4: a missing pinned file or unparseable pinned JSON falls
back to the empty list, and `load_chat_history` returns the empty list
on every read or parse failure; in those cases no exception reaches the
caller. -/
theorem load_fallbacks (fs : Str → ReadOutcome) (parseJson : Str → Option PJson) :
    (fs pinned_chats_file = .missing →
        load_pinned_chats fs parseJson = .ok (PJson.jarr [])) ∧
      (∀ c, fs pinned_chats_file = .ok c → parseJson c = none →
        load_pinned_chats fs parseJson = .ok (PJson.jarr [])) ∧
      (∀ chat_id, fs (session_file chat_id) = .missing →
        load_chat_history chat_id fs parseJson = PJson.jarr []) ∧
      (∀ chat_id, fs (session_file chat_id) = .err →
        load_chat_history chat_id fs parseJson = PJson.jarr []) ∧
      (∀ chat_id c, fs (session_file chat_id) = .ok c → parseJson c = none →
        load_chat_history chat_id fs parseJson = PJson.jarr []) := by
  refine ⟨?_, ?_, ?_, ?_, ?_⟩
  · intro h; unfold load_pinned_chats; rw [h]
  · intro c h hp; simp [load_pinned_chats, h, hp]
  · intro chat_id h; unfold load_chat_history; rw [h]
  · intro chat_id h; unfold load_chat_history; rw [h]
  · intro chat_id c h hp; simp [load_chat_history, h, hp]

/-- Witness for C4: an empty file system and a parser that always
fails. -/
theorem load_fallbacks_witness :
    load_pinned_chats (fun _ => .missing) (fun _ => none) = .ok (PJson.jarr []) ∧
      load_chat_history "x".toList (fun _ => .ok []) (fun _ => none) = PJson.jarr [] :=
  ⟨(load_fallbacks (fun _ => .missing) (fun _ => none)).1 rfl,
   (load_fallbacks (fun _ => .ok []) (fun _ => none)).2.2.2.2 "x".toList [] rfl rfl⟩

/-- Claim C6 fails on the code: the user message appended by the POST
handler has no `image` key. -/
theorem user_message_no_image_key :
    ¬ ("image".toList ∈ message_keys (user_message "hi".toList)) := by
  decide

/-- Claim C6 as amended: bot messages appended by the POST handler are
objects with exactly the keys `role`, `text`, `image`; user messages
have exactly the keys `role` and `text`. -/
theorem message_keys_shape (q t : Str) (img : Option Str) :
    message_keys (user_message q) = ["role".toList, "text".toList] ∧
      message_keys (bot_message t img) =
        ["role".toList, "text".toList, "image".toList] :=
  ⟨rfl, rfl⟩

/-- Claim C8: a POST request never rewrites history: the previously
persisted message sequence is a prefix of the new one, and the new one
is either unchanged or extends it by exactly one user message followed
by one bot message. -/
theorem post_update_appends (old_history : List (List (Str × PJson)))
    (user_query_raw : Str) (bot_outcome : Except Unit (Str × Option Str)) :
    old_history <+: post_update old_history user_query_raw bot_outcome ∧
      (post_update old_history user_query_raw bot_outcome = old_history ∨
        ∃ resp img, bot_outcome = .ok (resp, img) ∧
          post_update old_history user_query_raw bot_outcome =
            old_history ++ [user_message (pyStrip user_query_raw), bot_message resp img]) := by
  unfold post_update
  by_cases hq : pyStrip user_query_raw = []
  · simp only [hq, if_pos rfl]
    exact ⟨List.prefix_refl _, Or.inl rfl⟩
  · rw [if_neg hq]
    match bot_outcome with
    | .ok (resp, img) =>
      exact ⟨List.prefix_append _ _, Or.inr ⟨resp, img, rfl, rfl⟩⟩
    | .error _ =>
      exact ⟨List.prefix_refl _, Or.inl rfl⟩

/-- Witness for C8 (statable even though the theorem has no real
hypothesis; instantiates everything concretely). -/
theorem post_update_appends_witness :
    [] <+: post_update [] "hi".toList (.ok ("ok".toList, none)) ∧
      (post_update [] "hi".toList (.ok ("ok".toList, none)) = [] ∨
        ∃ resp img, (Except.ok ("ok".toList, none) : Except Unit (Str × Option Str)) = .ok (resp, img) ∧
          post_update [] "hi".toList (.ok ("ok".toList, none)) =
            [] ++ [user_message (pyStrip "hi".toList), bot_message resp img]) :=
  post_update_appends [] "hi".toList (.ok ("ok".toList, none))

/-- Claim C5: `chatbot_response` never propagates an exception: a
planning failure and a tool failure are rendered as inline error strings
(the latter containing the exception message), and an unknown tool name
yields the fixed fallback message. -/
theorem chatbot_response_errors (plan : ToolPlan) (current_data e : Str)
    (exec : Str → List (Str × Str) → Except Str Str) :
    (chatbot_response (.error e) current_data exec =
        markdown_to_html ("**Error planning tool call:** ".toList ++ e)) ∧
      (∀ n, plan.tool_name = some n → tool_belt_names.contains n →
        exec n (ensure_data (normalize_arguments plan.arguments) current_data) = .error e →
        chatbot_response (.ok plan) current_data exec =
          markdown_to_html ("An error occurred while running the tool: ".toList ++ e) ∧
          e <:+ ("An error occurred while running the tool: ".toList ++ e)) ∧
      (∀ n, plan.tool_name = some n → ¬ (tool_belt_names.contains n = true) →
        n ≠ "greeting_response".toList →
        chatbot_response (.ok plan) current_data exec =
          markdown_to_html "I\x27m not sure how to do that. Please try rephrasing.".toList) ∧
      (plan.tool_name = none →
        chatbot_response (.ok plan) current_data exec =
          markdown_to_html "I\x27m not sure how to do that. Please try rephrasing.".toList) := by
  refine ⟨rfl, ?_, ?_, ?_⟩
  · intro n hn hbelt hexec
    have hne : n ≠ "greeting_response".toList := by
      intro he; subst he; revert hbelt; decide
    constructor
    · simp only [chatbot_response, chatbot_response_core, hn, if_neg hne,
        if_pos hbelt, hexec]
    · exact List.suffix_append _ _
  · intro n hn hbelt hne
    simp only [chatbot_response, chatbot_response_core, hn, if_neg hne, if_neg hbelt]
  · intro hn
    simp only [chatbot_response, chatbot_response_core, hn]

/-- Witness for C5 at a concrete failing tool. -/
theorem chatbot_response_errors_witness :
    chatbot_response (.ok ⟨some "get_summary".toList, none⟩) [] (fun _ _ => .error "boom".toList) =
        markdown_to_html ("An error occurred while running the tool: ".toList ++ "boom".toList) ∧
      "boom".toList <:+ ("An error occurred while running the tool: ".toList ++ "boom".toList) :=
  (chatbot_response_errors ⟨some "get_summary".toList, none⟩ [] "boom".toList
      (fun _ _ => .error "boom".toList)).2.1 "get_summary".toList rfl (by decide) rfl


/-! ## Session listing -/

/-- Cutting the last five characters off `u ++ ".json"` gives back `u`. -/
theorem take_stem (u : Str) :
    (u ++ ".json".toList).take ((u ++ ".json".toList).length - 5) = u := by
  rw [List.length_append]
  have h5 : ".json".toList.length = 5 := rfl
  rw [h5, Nat.add_sub_cancel]
  exact List.take_left u _

/-- Membership in the listed session stems. -/
theorem mem_dir_sessions (listing : List Str) (x : Str) :
    x ∈ dir_sessions listing ↔
      (x ++ ".json".toList) ∈ listing ∧ x ≠ "pinned_chats".toList := by
  have hcat : "pinned_chats".toList ++ ".json".toList = pinned_chats_file := by decide
  constructor
  · intro hx
    rcases List.mem_map.1 hx with ⟨f, hf, hfx⟩
    rcases List.mem_filter.1 hf with ⟨hfl, hcond⟩
    rcases (Bool.and_eq_true _ _).mp hcond with ⟨hsuf, hne⟩
    rcases List.isSuffixOf_iff_suffix.1 hsuf with ⟨u, hu⟩
    have hx2 : x = u := by rw [← hfx, ← hu, take_stem]
    subst hx2
    refine ⟨hu ▸ hfl, ?_⟩
    intro he
    have : f ≠ pinned_chats_file := by simpa using hne
    exact this (by rw [← hu, he, hcat])
  · rintro ⟨hin, hne⟩
    refine List.mem_map.2 ⟨x ++ ".json".toList, List.mem_filter.2 ⟨hin, ?_⟩, take_stem x⟩
    refine (Bool.and_eq_true _ _).mpr ⟨List.isSuffixOf_iff_suffix.2 ⟨x, rfl⟩, ?_⟩
    simp only [bne_iff_ne, ne_eq]
    intro he
    exact hne (List.append_cancel_right (hcat ▸ he))

/-- The listed session stems are duplicate-free when the directory
listing is. -/
theorem dir_sessions_nodup (listing : List Str) (hl : listing.Nodup) :
    (dir_sessions listing).Nodup := by
  refine List.Nodup.map_on ?_ (hl.filter _)
  intro f1 h1 f2 h2 heq
  rcases List.mem_filter.1 h1 with ⟨_, hc1⟩
  rcases List.mem_filter.1 h2 with ⟨_, hc2⟩
  rcases (Bool.and_eq_true _ _).mp hc1 with ⟨hs1, _⟩
  rcases (Bool.and_eq_true _ _).mp hc2 with ⟨hs2, _⟩
  rcases List.isSuffixOf_iff_suffix.1 hs1 with ⟨u1, hu1⟩
  rcases List.isSuffixOf_iff_suffix.1 hs2 with ⟨u2, hu2⟩
  rw [← hu1, ← hu2, take_stem, take_stem] at heq
  rw [← hu1, ← hu2, heq]

/-- Claim C10: `list_chat_sessions` never lists `pinned_chats`, omits
ids with no session file, lists the pinned existing sessions (in pinned
order) strictly before all unpinned ones, and contains no duplicate. -/
theorem list_chat_sessions_spec (listing pinned_ids : List Str) (mtime : Str → Int)
    (hl : listing.Nodup) (hp : pinned_ids.Nodup) :
    "pinned_chats".toList ∉ list_chat_sessions listing pinned_ids mtime ∧
      (∀ cid, (cid ++ ".json".toList) ∉ listing →
        cid ∉ list_chat_sessions listing pinned_ids mtime) ∧
      (∃ us, list_chat_sessions listing pinned_ids mtime =
          pinned_ids.filter (fun cid => (dir_sessions listing).contains cid) ++ us ∧
          ∀ x ∈ us, x ∉ pinned_ids) ∧
      (list_chat_sessions listing pinned_ids mtime).Nodup := by
  have hmemS : ∀ x, (dir_sessions listing).contains x = true ↔ x ∈ dir_sessions listing := by
    intro x; simp [List.contains, List.elem_iff]
  have hmemP : ∀ x, pinned_ids.contains x = true ↔ x ∈ pinned_ids := by
    intro x; simp [List.contains, List.elem_iff]
  have hunfold : list_chat_sessions listing pinned_ids mtime =
      pinned_ids.filter (fun cid => (dir_sessions listing).contains cid) ++
        ((dir_sessions listing).filter
          (fun cid => !(pinned_ids.contains cid))).mergeSort
          (fun a b => mtime b ≤ mtime a) := rfl
  have hMmem : ∀ x, x ∈ ((dir_sessions listing).filter
      (fun cid => !(pinned_ids.contains cid))).mergeSort (fun a b => mtime b ≤ mtime a) ↔
      x ∈ (dir_sessions listing).filter (fun cid => !(pinned_ids.contains cid)) := by
    intro x
    exact (List.mergeSort_perm _ _).mem_iff
  refine ⟨?_, ?_, ?_, ?_⟩
  · rw [hunfold]
    intro hmem
    rcases List.mem_append.1 hmem with h | h
    · rcases List.mem_filter.1 h with ⟨_, hc⟩
      have hs := ((mem_dir_sessions listing _).1 ((hmemS _).1 hc)).2
      exact hs rfl
    · rcases List.mem_filter.1 ((hMmem _).1 h) with ⟨hS, _⟩
      exact ((mem_dir_sessions listing _).1 hS).2 rfl
  · intro cid hno
    rw [hunfold]
    intro hmem
    rcases List.mem_append.1 hmem with h | h
    · rcases List.mem_filter.1 h with ⟨_, hc⟩
      exact hno ((mem_dir_sessions listing _).1 ((hmemS _).1 hc)).1
    · rcases List.mem_filter.1 ((hMmem _).1 h) with ⟨hS, _⟩
      exact hno ((mem_dir_sessions listing _).1 hS).1
  · refine ⟨_, hunfold, ?_⟩
    intro x hx
    rcases List.mem_filter.1 ((hMmem _).1 hx) with ⟨_, hc⟩
    intro hmem
    rw [Bool.not_eq_true'] at hc
    rw [← hmemP x] at hmem
    rw [hmem] at hc
    exact Bool.noConfusion hc
  · rw [hunfold]
    refine List.Nodup.append (hp.filter _) ?_ ?_
    · exact ((List.mergeSort_perm _ _).symm).nodup
        ((dir_sessions_nodup listing hl).filter _)
    · intro x hxP hxM
      rcases List.mem_filter.1 hxP with ⟨hxp, _⟩
      rcases List.mem_filter.1 ((hMmem _).1 hxM) with ⟨_, hc⟩
      rw [Bool.not_eq_true'] at hc
      rw [← hmemP x] at hxp
      rw [hxp] at hc
      exact Bool.noConfusion hc

/-- Witness for C10 at a concrete directory and pinned list. -/
theorem list_chat_sessions_spec_witness :
    "pinned_chats".toList ∉
        list_chat_sessions ["a.json".toList, "pinned_chats.json".toList]
          ["b".toList] (fun _ => 0) ∧
      (∀ cid, (cid ++ ".json".toList) ∉ ["a.json".toList, "pinned_chats.json".toList] →
        cid ∉ list_chat_sessions ["a.json".toList, "pinned_chats.json".toList]
          ["b".toList] (fun _ => 0)) ∧
      (∃ us, list_chat_sessions ["a.json".toList, "pinned_chats.json".toList]
            ["b".toList] (fun _ => 0) =
          ["b".toList].filter
            (fun cid => (dir_sessions ["a.json".toList, "pinned_chats.json".toList]).contains cid)
            ++ us ∧
          ∀ x ∈ us, x ∉ ["b".toList]) ∧
      (list_chat_sessions ["a.json".toList, "pinned_chats.json".toList]
        ["b".toList] (fun _ => 0)).Nodup :=
  list_chat_sessions_spec ["a.json".toList, "pinned_chats.json".toList]
    ["b".toList] (fun _ => 0) (by decide) (by decide)

/-! ## Entity-count machinery -/

/-- A prefix of a concatenation is a prefix of the left part or covers
it. -/
theorem prefix_split (T A B : Str) (h : T <+: A ++ B) :
    T <+: A ∨ (A <+: T ∧ (T.drop A.length) <+: B) := by
  by_cases hl : T.length ≤ A.length
  · exact Or.inl (List.prefix_of_prefix_length_le h (List.prefix_append A B) hl)
  · have hA : A <+: T :=
      List.prefix_of_prefix_length_le (List.prefix_append A B) h (le_of_not_le hl)
    rcases hA with ⟨T', hT'⟩
    refine Or.inr ⟨⟨T', hT'⟩, ?_⟩
    subst hT'
    rw [List.drop_left]
    exact (List.prefix_append_right_inj A).1 h

/-- Counting splits over a concatenation with no straddling occurrence. -/
theorem countSub_append (p A B : Str) (h : NoStraddle p A B) :
    countSub p (A ++ B) = countSub p A + countSub p B := by
  induction A with
  | nil => simp [countSub]
  | cons c t ih =>
    have ih' := ih (fun T hT hne hlen => h T (hT.trans (List.suffix_cons c t)) hne hlen)
    simp only [List.cons_append, countSub, List.append_eq]
    rw [ih']
    have hiff : ((p <+: c :: (t ++ B)) ↔ (p <+: c :: t)) := by
      constructor
      · intro hpre
        rcases prefix_split p (c :: t) B (by simpa using hpre) with h1 | ⟨h2, h3⟩
        · exact h1
        · by_cases heq : p.length ≤ (c :: t).length
          · have : c :: t = p := h2.eq_of_length (le_antisymm h2.length_le heq)
            rw [← this]
          · exact absurd ⟨h2, h3⟩
              (h (c :: t) (List.suffix_refl _) (by simp) (by omega))
      · intro hpre
        exact hpre.trans ((c :: t).prefix_append B)
    rw [if_congr hiff rfl rfl]
    omega

/-- A pattern starting with `&` does not start at a character other
than `&`. -/
theorem countSub_cons_ne (p' : Str) (c : Char) (s : Str) (hc : c ≠ '&') :
    countSub ('&' :: p') (c :: s) = countSub ('&' :: p') s := by
  simp only [countSub]
  rw [if_neg, Nat.zero_add]
  intro h
  exact hc (List.cons_prefix_cons.1 h).1.symm

/-- A pattern starting with `&` never occurs in an `&`-free string. -/
theorem countSub_zero_of_no_amp (p' A : Str) (h : '&' ∉ A) :
    countSub ('&' :: p') A = 0 := by
  induction A with
  | nil => rfl
  | cons c t ih =>
    have hc : c ≠ '&' := fun he => h (he ▸ List.mem_cons_self c t)
    rw [countSub_cons_ne p' c t hc]
    exact ih (fun hm => h (List.mem_cons_of_mem c hm))

/-- No straddling out of an `&`-free left part. -/
theorem noStraddle_of_no_amp (p' A B : Str) (h : '&' ∉ A) :
    NoStraddle ('&' :: p') A B := by
  rintro T hTA hne hlen ⟨hTp, -⟩
  rcases T with _ | ⟨c, T'⟩
  · exact hne rfl
  · have hc : c = '&' := (List.cons_prefix_cons.1 hTp).1
    exact h (hc ▸ hTA.subset (List.mem_cons_self c T'))

/-- No straddling into a right part whose head cannot continue an
entity body. -/
theorem noStraddle_of_headSafe (p' A B : Str) (hp : ∀ c ∈ p', c ∈ tailChars)
    (hB : headSafe B) : NoStraddle ('&' :: p') A B := by
  rintro T hTA hne hlen ⟨hTp, hdrop⟩
  have hTlen : 1 ≤ T.length := by
    cases T with
    | nil => exact absurd rfl hne
    | cons _ _ => simp
  have hdrop' : (('&' :: p').drop T.length) = p'.drop (T.length - 1) := by
    cases T with
    | nil => exact absurd rfl hne
    | cons c T' => simp
  rw [hdrop'] at hdrop
  have hlen' : T.length - 1 < p'.length := by
    simp only [List.length_cons] at hlen; omega
  rcases hd : p'.drop (T.length - 1) with _ | ⟨d, rest⟩
  · have := congrArg List.length hd
    simp at this; omega
  · rw [hd] at hdrop
    have hdmem : d ∈ p' := by
      have h1 : d ∈ p'.drop (T.length - 1) := hd ▸ List.mem_cons_self d rest
      exact List.mem_of_mem_drop h1
    have hdtail : d ∈ tailChars := hp d hdmem
    cases B with
    | nil => simp [List.prefix_nil] at hdrop
    | cons b B' =>
      have hdb : d = b := (List.cons_prefix_cons.1 hdrop).1
      exact hB.1 (hdb ▸ hdtail)

/-- No straddling out of a left part ending in a long `&`-free block. -/
theorem noStraddle_of_lastE (p' A B X E : Str) (hA : A = X ++ E) (hE : '&' ∉ E)
    (hlen : p'.length ≤ E.length) : NoStraddle ('&' :: p') A B := by
  rintro T hTA hne hlenT ⟨hTp, -⟩
  have hTlen : T.length ≤ E.length := by
    simp only [List.length_cons] at hlenT; omega
  subst hA
  rcases hTA with ⟨Z, hZ⟩
  have hZlen : X.length ≤ Z.length := by
    have := congrArg List.length hZ
    simp only [List.length_append] at this; omega
  have hXZ : X <+: Z := by
    have h1 : X <+: Z ++ T := hZ ▸ X.prefix_append E
    exact List.prefix_of_prefix_length_le h1 (Z.prefix_append T) hZlen
  rcases hXZ with ⟨Z', hZ'⟩
  have hE' : Z' ++ T = E := by
    rw [← hZ', List.append_assoc] at hZ
    exact (List.append_inj hZ rfl).2
  rcases T with _ | ⟨c, T'⟩
  · exact hne rfl
  · have hc : c = '&' := (List.cons_prefix_cons.1 hTp).1
    have hcE : c ∈ E := hE' ▸ List.mem_append.2 (Or.inr (List.mem_cons_self c T'))
    exact hE (hc ▸ hcE)

/-- Unfolding `entOk` at a cons. -/
theorem entOk_cons (c : Char) (t : Str) :
    entOk (c :: t) = true ↔ (c ≠ '&' ∨ entTail t = true) ∧ entOk t = true := by
  simp [entOk, Bool.or_eq_true, bne_iff_ne]

/-- `entOk` passes to the tail. -/
theorem entOk_tail (c : Char) (t : Str) (h : entOk (c :: t) = true) :
    entOk t = true := ((entOk_cons c t).1 h).2

/-- `entOk` passes to suffixes. -/
theorem entOk_suffix (Y s : Str) (h : Y <:+ s) (hs : entOk s = true) :
    entOk Y = true := by
  rcases h with ⟨X, hX⟩
  subst hX
  induction X with
  | nil => exact hs
  | cons c t ih => exact ih (entOk_tail _ _ hs)

/-- Prepending `&`-free text preserves `entOk`. -/
theorem entOk_append_no_amp (X Y : Str) (hX : '&' ∉ X) (hY : entOk Y = true) :
    entOk (X ++ Y) = true := by
  induction X with
  | nil => exact hY
  | cons c t ih =>
    have hc : c ≠ '&' := fun he => hX (he ▸ List.mem_cons_self c t)
    rw [List.cons_append, entOk_cons]
    exact ⟨Or.inl hc, ih (fun hm => hX (List.mem_cons_of_mem c hm))⟩

/-- An entity tail is one of the five bodies followed by a rest. -/
theorem entTail_decomp (t : Str) (h : entTail t = true) :
    ∃ T t', T ∈ tails5 ∧ t = T ++ t' := by
  simp only [entTail, List.any_eq_true, List.isPrefixOf_iff_prefix] at h
  rcases h with ⟨T, hT, t', rfl⟩
  exact ⟨T, t', hT, rfl⟩

/-- Conversely, a string starting with one of the bodies has an entity
tail. -/
theorem entTail_of_start (T u : Str) (hT : T ∈ tails5) (h : T <+: u) :
    entTail u = true := by
  simp only [entTail, List.any_eq_true, List.isPrefixOf_iff_prefix]
  exact ⟨T, hT, h⟩

/-- Every character of an entity body is a `tailChars` character. -/
theorem tails5_chars : ∀ T ∈ tails5, ∀ c ∈ T, c ∈ tailChars := by decide

/-- Entity bodies contain no `&`. -/
theorem tails5_no_amp : ∀ T ∈ tails5, '&' ∉ T := by decide

/-- Entity bodies are short. -/
theorem tails5_len : ∀ T ∈ tails5, T.length ≤ 4 := by decide

/-- The tracked bodies are entity bodies. -/
theorem tails3_sub : ∀ p ∈ tails3, p ∈ tails5 := by decide

/-- Replacing the text after a block by other `headSafe` text preserves
`entOk` of the block, provided both contexts are `headSafe` (no entity
of the block can reach into the context). -/
theorem entOk_change_context (C R R2 : Str) (h : entOk (C ++ R) = true)
    (hR : headSafe R) (h2 : entOk R2 = true) :
    entOk (C ++ R2) = true := by
  induction C with
  | nil => exact h2
  | cons c C' ih =>
    rw [List.cons_append] at h ⊢
    have htail := entOk_tail _ _ h
    have hcond := ((entOk_cons _ _).1 h).1
    rw [entOk_cons]
    refine ⟨?_, ih htail⟩
    rcases hcond with hc | htl
    · exact Or.inl hc
    · refine Or.inr ?_
      rcases entTail_decomp _ htl with ⟨T, t', hT, hdec⟩
      have hpre : T <+: C' ++ R := ⟨t', hdec.symm⟩
      have hTC : T <+: C' := by
        rcases prefix_split T C' R hpre with h1 | ⟨h2', h3⟩
        · exact h1
        · by_cases hle : T.length ≤ C'.length
          · have : C' = T := h2'.eq_of_length (le_antisymm h2'.length_le hle)
            exact this ▸ List.prefix_refl _
          · exfalso
            rcases hdr : T.drop C'.length with _ | ⟨d, rest⟩
            · have := congrArg List.length hdr
              simp at this; omega
            · rw [hdr] at h3
              have hdmem : d ∈ T := by
                have h1 : d ∈ T.drop C'.length := hdr ▸ List.mem_cons_self d rest
                exact List.mem_of_mem_drop h1
              have hdtc : d ∈ tailChars := tails5_chars T hT d hdmem
              cases R with
              | nil => simp [List.prefix_nil] at h3
              | cons r R' =>
                have : d = r := (List.cons_prefix_cons.1 h3).1
                exact hR.1 (this ▸ hdtc)
      exact entTail_of_start T _ hT (hTC.trans (C'.prefix_append R2))

/-- The same, when the block ends in a long `&`-free run (so that no
entity of the block can reach the context at all). -/
theorem entOk_change_contextE (X E R R2 : Str)
    (h : entOk ((X ++ E) ++ R) = true) (hE : '&' ∉ E) (hlen : 4 ≤ E.length)
    (h2 : entOk R2 = true) : entOk ((X ++ E) ++ R2) = true := by
  induction X with
  | nil =>
    simp only [List.nil_append] at h ⊢
    exact entOk_append_no_amp E R2 hE h2
  | cons c X' ih =>
    simp only [List.cons_append] at h ⊢
    have htail := entOk_tail _ _ h
    have hcond := ((entOk_cons _ _).1 h).1
    rw [entOk_cons]
    refine ⟨?_, ih htail⟩
    rcases hcond with hc | htl
    · exact Or.inl hc
    · refine Or.inr ?_
      rcases entTail_decomp _ htl with ⟨T, t', hT, hdec⟩
      have hpre : T <+: (X' ++ E) ++ R := ⟨t', hdec.symm⟩
      have hTC : T <+: X' ++ E := by
        refine List.prefix_of_prefix_length_le hpre ((X' ++ E).prefix_append R) ?_
        have h4 := tails5_len T hT
        simp only [List.length_append]
        omega
      exact entTail_of_start T _ hT (hTC.trans ((X' ++ E).prefix_append R2))

/-- Counting an entity pattern across a `&` that opens a (possibly
different) entity. -/
theorem countSub_amp_entity (p' T s : Str) (hp : p' ∈ tails3) (hT : T ∈ tails5) :
    countSub ('&' :: p') ('&' :: (T ++ s)) =
      (if T = p' then 1 else 0) + countSub ('&' :: p') s := by
  have hiff : (('&' :: p') <+: ('&' :: (T ++ s))) ↔ T = p' := by
    rw [List.cons_prefix_cons]
    simp only [true_and]
    constructor
    · intro hpre
      simp only [tails3, List.mem_cons, List.not_mem_nil, or_false] at hp
      simp only [tails5, List.mem_cons, List.not_mem_nil, or_false] at hT
      rcases hp with rfl | rfl | rfl <;> rcases hT with rfl | rfl | rfl | rfl | rfl <;>
        simp only [List.cons_append, List.nil_append] at hpre <;>
        first
          | rfl
          | (exact absurd (List.cons_prefix_cons.1 hpre).1 (by decide))
    · rintro rfl
      exact List.prefix_append _ _
  have h0 : countSub ('&' :: p') (T ++ s) = countSub ('&' :: p') s := by
    rw [countSub_append _ T s (noStraddle_of_no_amp p' T s (tails5_no_amp T hT)),
      countSub_zero_of_no_amp p' T (tails5_no_amp T hT), Nat.zero_add]
  simp only [countSub]
  rw [if_congr hiff rfl rfl, h0]

/-- Counting an entity pattern across one escaped character. -/
theorem countSub_escChar (p' : Str) (hp : p' ∈ tails3) (c : Char) (s : Str) :
    countSub ('&' :: p') (escChar c ++ s) =
      (if ('&' :: p' : Str) = escChar c then 1 else 0) + countSub ('&' :: p') s := by
  have hne : p' ≠ [] := by
    simp only [tails3, List.mem_cons, List.not_mem_nil, or_false] at hp
    rcases hp with rfl | rfl | rfl <;> simp
  have key : ∀ T : Str, T ∈ tails5 →
      countSub ('&' :: p') (('&' :: T) ++ s) =
        (if ('&' :: p' : Str) = '&' :: T then 1 else 0) + countSub ('&' :: p') s := by
    intro T hT
    rw [show (('&' :: T) ++ s : Str) = '&' :: (T ++ s) from rfl,
      countSub_amp_entity p' T s hp hT]
    by_cases he : T = p'
    · rw [if_pos he, if_pos (by rw [he])]
    · have hne2 : ¬ (('&' :: p' : Str) = '&' :: T) := by
        intro hx
        simp only [List.cons.injEq, true_and] at hx
        exact he hx.symm
      rw [if_neg he, if_neg hne2]
  by_cases h1 : c = '&'
  · subst h1
    exact key ['a', 'm', 'p', ';'] (by decide)
  by_cases h2 : c = '<'
  · subst h2
    exact key ['l', 't', ';'] (by decide)
  by_cases h3 : c = '>'
  · subst h3
    exact key ['g', 't', ';'] (by decide)
  by_cases h4 : c = Char.ofNat 39
  · subst h4
    exact key ['#', '3', '9', ';'] (by decide)
  by_cases h5 : c = Char.ofNat 34
  · subst h5
    exact key ['#', '3', '4', ';'] (by decide)
  have himg : escChar c = [c] := by
    rw [escChar, if_neg h1, if_neg h2, if_neg h3, if_neg h4, if_neg h5]
  rw [himg]
  have hne2 : ¬ (('&' :: p' : Str) = [c]) := by
    intro he
    rcases p' with _ | ⟨x, xs⟩
    · exact hne rfl
    · simp at he
  rw [List.singleton_append, countSub_cons_ne p' c s h1, if_neg hne2, Nat.zero_add]

/-- `escChar` case analysis: which character produced which image. -/
theorem escChar_cases (c : Char) :
    (c = '&' ∧ escChar c = ['&', 'a', 'm', 'p', ';']) ∨
      (c = '<' ∧ escChar c = ['&', 'l', 't', ';']) ∨
      (c = '>' ∧ escChar c = ['&', 'g', 't', ';']) ∨
      (c = Char.ofNat 39 ∧ escChar c = ['&', '#', '3', '9', ';']) ∨
      (c = Char.ofNat 34 ∧ escChar c = ['&', '#', '3', '4', ';']) ∨
      (escChar c = [c] ∧ c ≠ '&') := by
  rw [escChar]
  split_ifs with h1 h2 h3 h4 h5 <;> tauto

/-- The count of an entity in escaped text is the count of the raw
character in the input. -/
theorem countSub_escape (p' : Str) (hp : p' ∈ tails3) (c0 : Char)
    (hc : escChar c0 = '&' :: p') (s : Str) :
    countSub ('&' :: p') (escape s) = s.count c0 := by
  have hinj : ∀ c : Char, (('&' :: p' : Str) = escChar c) → c = c0 := by
    intro c he
    rcases escChar_cases c with ⟨rfl, hC⟩ | ⟨rfl, hC⟩ | ⟨rfl, hC⟩ | ⟨rfl, hC⟩ |
        ⟨rfl, hC⟩ | ⟨hC, hcne⟩ <;>
      rcases escChar_cases c0 with ⟨rfl, hD⟩ | ⟨rfl, hD⟩ | ⟨rfl, hD⟩ | ⟨rfl, hD⟩ |
        ⟨rfl, hD⟩ | ⟨hD, hdne⟩ <;>
      rw [hC] at he <;> rw [hD] at hc <;>
      first
        | rfl
        | (exact absurd (hc.trans he) (by decide))
        | (exfalso
           simp only [List.cons.injEq] at he
           exact hcne he.1.symm)
        | (exfalso
           simp only [List.cons.injEq] at hc
           exact hdne hc.1)
  induction s with
  | nil => simp [escape, countSub, List.count_nil]
  | cons c t ih =>
    rw [escape, countSub_escChar p' hp c (escape t), ih, List.count_cons]
    have hiff : (('&' :: p' : Str) = escChar c) ↔ (c = c0) := by
      constructor
      · exact hinj c
      · rintro rfl
        exact hc.symm
    rw [if_congr hiff rfl rfl]
    rcases Classical.em (c = c0) with he | he <;> simp [he] <;> omega

/-- Escaped text satisfies the entity invariant. -/
theorem entOk_escape (s : Str) : entOk (escape s) = true := by
  induction s with
  | nil => rfl
  | cons c t ih =>
    rw [escape, escChar]
    split_ifs with h1 h2 h3 h4 h5
    · rw [show (['&', 'a', 'm', 'p', ';'] ++ escape t : Str) =
          '&' :: (['a', 'm', 'p', ';'] ++ escape t) from rfl, entOk_cons]
      exact ⟨Or.inr (entTail_of_start ['a', 'm', 'p', ';'] _ (by decide)
        (List.prefix_append _ _)), entOk_append_no_amp _ _ (by decide) ih⟩
    · rw [show (['&', 'l', 't', ';'] ++ escape t : Str) =
          '&' :: (['l', 't', ';'] ++ escape t) from rfl, entOk_cons]
      exact ⟨Or.inr (entTail_of_start ['l', 't', ';'] _ (by decide)
        (List.prefix_append _ _)), entOk_append_no_amp _ _ (by decide) ih⟩
    · rw [show (['&', 'g', 't', ';'] ++ escape t : Str) =
          '&' :: (['g', 't', ';'] ++ escape t) from rfl, entOk_cons]
      exact ⟨Or.inr (entTail_of_start ['g', 't', ';'] _ (by decide)
        (List.prefix_append _ _)), entOk_append_no_amp _ _ (by decide) ih⟩
    · rw [show (['&', '#', '3', '9', ';'] ++ escape t : Str) =
          '&' :: (['#', '3', '9', ';'] ++ escape t) from rfl, entOk_cons]
      exact ⟨Or.inr (entTail_of_start ['#', '3', '9', ';'] _ (by decide)
        (List.prefix_append _ _)), entOk_append_no_amp _ _ (by decide) ih⟩
    · rw [show (['&', '#', '3', '4', ';'] ++ escape t : Str) =
          '&' :: (['#', '3', '4', ';'] ++ escape t) from rfl, entOk_cons]
      exact ⟨Or.inr (entTail_of_start ['#', '3', '4', ';'] _ (by decide)
        (List.prefix_append _ _)), entOk_append_no_amp _ _ (by decide) ih⟩
    · rw [List.singleton_append, entOk_cons]
      exact ⟨Or.inl h1, ih⟩

/-- Escaped text contains no raw `<` or `>`. -/
theorem escape_no_raw (s : Str) : '<' ∉ escape s ∧ '>' ∉ escape s := by
  induction s with
  | nil => simp [escape]
  | cons c t ih =>
    rw [escape]
    constructor <;> intro hmem <;> rcases List.mem_append.1 hmem with hm | hm
    · revert hm
      rw [escChar]
      split_ifs with g1 g2 g3 g4 g5
      · decide
      · decide
      · decide
      · decide
      · decide
      · exact fun hm => g2 (List.mem_singleton.1 hm).symm
    · exact ih.1 hm
    · revert hm
      rw [escChar]
      split_ifs with g1 g2 g3 g4 g5
      · decide
      · decide
      · decide
      · decide
      · decide
      · exact fun hm => g3 (List.mem_singleton.1 hm).symm
    · exact ih.2 hm

/-- Extracting the entity opened by a leading `&`. -/
theorem entOk_amp_decomp (t : Str) (h : entOk ('&' :: t) = true) :
    ∃ T t', T ∈ tails5 ∧ t = T ++ t' ∧ entOk t' = true := by
  rcases ((entOk_cons _ _).1 h).1 with hc | htl
  · exact absurd rfl hc
  · rcases entTail_decomp t htl with ⟨T, t', hT, rfl⟩
    exact ⟨T, t', hT, rfl, entOk_suffix t' _ ⟨T, rfl⟩ (entOk_tail _ _ h)⟩

/-- Cons of a non-`&` character preserves `entOk`. -/
theorem entOk_cons_ne (c : Char) (t : Str) (hc : c ≠ '&') (h : entOk t = true) :
    entOk (c :: t) = true := (entOk_cons c t).2 ⟨Or.inl hc, h⟩

/-- Rebuilding an entity head. -/
theorem entOk_amp_build (T OUT : Str) (hT : T ∈ tails5) (hOUT : entOk OUT = true) :
    entOk ('&' :: (T ++ OUT)) = true :=
  (entOk_cons _ _).2 ⟨Or.inr (entTail_of_start T _ hT (List.prefix_append _ _)),
    entOk_append_no_amp T OUT (tails5_no_amp T hT) hOUT⟩

/-- Entity-body characters are none of the characters the scanners act
on. -/
theorem tailChars_facts : ∀ c ∈ tailChars,
    c ≠ '&' ∧ c ≠ '\n' ∧ c ≠ '\r' ∧ c ≠ '*' := by decide

/-- `brSub` walks through entity-body characters unchanged. -/
theorem brSub_tail_step (T : Str) (hT : ∀ c ∈ T, c ∈ tailChars) :
    ∀ fuel t, brSub fuel (T ++ t) = T ++ brSub (fuel - T.length) t := by
  induction T with
  | nil => intro fuel t; simp
  | cons c T' ih =>
    intro fuel t
    cases fuel with
    | zero => rw [Nat.zero_sub]; rfl
    | succ fuel =>
      have hc := tailChars_facts c (hT c (List.mem_cons_self _ _))
      rw [List.cons_append, brSub, if_neg (by simp [hc.2.1])]
      rw [ih (fun x hx => hT x (List.mem_cons_of_mem c hx)) fuel t]
      rw [List.length_cons, show fuel + 1 - (T'.length + 1) = fuel - T'.length from by omega]
      rfl

/-- `brSub` preserves the entity invariant and the entity counts. -/
theorem brSub_preserves : ∀ fuel s, entOk s = true →
    entOk (brSub fuel s) = true ∧
      ∀ p' ∈ tails3, countSub ('&' :: p') (brSub fuel s) = countSub ('&' :: p') s := by
  intro fuel
  induction fuel using Nat.strong_induction_on with
  | _ fuel ih =>
    intro s hs
    match fuel with
    | 0 => exact ⟨hs, fun _ _ => rfl⟩
    | fuel + 1 =>
      match s with
      | [] => exact ⟨rfl, fun _ _ => rfl⟩
      | c :: t =>
        by_cases hcnd : (c = '\n' && t.head? == some '\n') = true
        · rw [show brSub (fuel + 1) (c :: t) =
              ['<', 'b', 'r', '>'] ++ brSub fuel ((c :: t).dropWhile (fun x => x = '\n'))
            from by rw [brSub, if_pos hcnd]]
          have hsuf : (c :: t).dropWhile (fun x => x = '\n') <:+ c :: t :=
            List.dropWhile_suffix _
          have hrest_ok : entOk ((c :: t).dropWhile (fun x => x = '\n')) = true :=
            entOk_suffix _ _ hsuf hs
          have hrec := ih fuel (by omega) _ hrest_ok
          have hrun_no_amp : '&' ∉ (c :: t).takeWhile (fun x => x = '\n') := by
            intro hmem
            have := List.mem_takeWhile_imp hmem
            simp at this
          refine ⟨entOk_append_no_amp _ _ (by decide) hrec.1, ?_⟩
          intro p' hp
          rw [countSub_append _ _ _ (noStraddle_of_no_amp p' _ _ (by decide)),
            countSub_zero_of_no_amp p' _ (by decide), Nat.zero_add, hrec.2 p' hp]
          conv_rhs => rw [show (c :: t : Str) =
            (c :: t).takeWhile (fun x => x = '\n') ++ (c :: t).dropWhile (fun x => x = '\n')
            from (List.takeWhile_append_dropWhile _ _).symm]
          rw [countSub_append _ _ _ (noStraddle_of_no_amp p' _ _ hrun_no_amp),
            countSub_zero_of_no_amp p' _ hrun_no_amp, Nat.zero_add]
        · rw [show brSub (fuel + 1) (c :: t) = c :: brSub fuel t
            from by rw [brSub, if_neg hcnd]]
          by_cases hc : c = '&'
          · subst hc
            rcases entOk_amp_decomp t hs with ⟨T, t', hT, rfl, ht'⟩
            rw [brSub_tail_step T (tails5_chars T hT) fuel t']
            have hrec := ih (fuel - T.length) (by omega) t' ht'
            refine ⟨entOk_amp_build T _ hT hrec.1, ?_⟩
            intro p' hp
            rw [countSub_amp_entity p' T _ hp hT, countSub_amp_entity p' T _ hp hT,
              hrec.2 p' hp]
          · have hrec := ih fuel (by omega) t (entOk_tail _ _ hs)
            refine ⟨entOk_cons_ne c _ hc hrec.1, ?_⟩
            intro p' hp
            rw [countSub_cons_ne p' c _ hc, countSub_cons_ne p' c _ hc, hrec.2 p' hp]

/-- Characters kept by a `takeWhile` whose predicate rejects `&`. -/
theorem no_amp_takeWhile (p : Char → Bool) (hp : p '&' = false) (u : Str) :
    '&' ∉ u.takeWhile p := by
  intro hm
  have := List.mem_takeWhile_imp hm
  rw [hp] at this
  cases this

/-- The tracked bodies consist of entity-body characters. -/
theorem tails3_chars : ∀ p ∈ tails3, ∀ c ∈ p, c ∈ tailChars :=
  fun p hp => tails5_chars p (tails3_sub p hp)

/-- What remains after dropping up to a newline is `headSafe`. -/
theorem headSafe_dropNl (u : Str) : headSafe (u.dropWhile (fun x => x ≠ '\n')) := by
  rcases hd : u.dropWhile (fun x => x ≠ '\n') with _ | ⟨x, xs⟩
  · trivial
  · have hx : ¬ (x ≠ '\n') := by
      have h1 : (fun x => decide (x ≠ '\n')) x = false := by
        have h2 := List.head?_dropWhile_not (fun x => decide (x ≠ '\n')) u
        rw [hd] at h2
        simpa using h2
      simpa using h1
    constructor
    · rw [not_not.1 hx]; decide
    · rw [not_not.1 hx]; decide

/-- `replaceCRLF` walks through entity-body characters unchanged. -/
theorem replaceCRLF_tail_step (T : Str) (hT : ∀ c ∈ T, c ∈ tailChars) :
    ∀ fuel t, replaceCRLF fuel (T ++ t) = T ++ replaceCRLF (fuel - T.length) t := by
  induction T with
  | nil => intro fuel t; simp
  | cons c T' ih =>
    intro fuel t
    cases fuel with
    | zero => rw [Nat.zero_sub]; rfl
    | succ fuel =>
      have hc := tailChars_facts c (hT c (List.mem_cons_self _ _))
      rw [List.cons_append, replaceCRLF, if_neg (by simp [hc.2.2.1])]
      rw [ih (fun x hx => hT x (List.mem_cons_of_mem c hx)) fuel t]
      rw [List.length_cons, show fuel + 1 - (T'.length + 1) = fuel - T'.length from by omega]
      rfl

/-- `replaceCRLF` preserves the entity invariant and the entity counts. -/
theorem replaceCRLF_preserves : ∀ fuel s, entOk s = true →
    entOk (replaceCRLF fuel s) = true ∧
      ∀ p' ∈ tails3, countSub ('&' :: p') (replaceCRLF fuel s) = countSub ('&' :: p') s := by
  intro fuel
  induction fuel using Nat.strong_induction_on with
  | _ fuel ih =>
    intro s hs
    match fuel with
    | 0 => exact ⟨hs, fun _ _ => rfl⟩
    | fuel + 1 =>
      match s with
      | [] => exact ⟨rfl, fun _ _ => rfl⟩
      | c :: t =>
        by_cases hcnd : (c = '\r' && t.head? == some '\n') = true
        · rw [show replaceCRLF (fuel + 1) (c :: t) = '\n' :: replaceCRLF fuel t.tail
            from by rw [replaceCRLF, if_pos hcnd]]
          have hc2 : c = '\r' ∧ t.head? = some '\n' := by simpa using hcnd
          rcases t with _ | ⟨x, tt⟩
          · simp at hc2
          · simp only [List.tail_cons]
            have hx : x = '\n' := by simpa using hc2.2
            have hrec := ih fuel (by omega) tt (entOk_tail _ _ (entOk_tail _ _ hs))
            refine ⟨entOk_cons_ne _ _ (by decide) hrec.1, ?_⟩
            intro p' hp
            rw [countSub_cons_ne p' _ _ (by decide), hrec.2 p' hp,
              countSub_cons_ne p' c _ (by rw [hc2.1]; decide),
              countSub_cons_ne p' x _ (by rw [hx]; decide)]
        · rw [show replaceCRLF (fuel + 1) (c :: t) = c :: replaceCRLF fuel t
            from by rw [replaceCRLF, if_neg hcnd]]
          by_cases hc : c = '&'
          · subst hc
            rcases entOk_amp_decomp t hs with ⟨T, t', hT, rfl, ht'⟩
            rw [replaceCRLF_tail_step T (tails5_chars T hT) fuel t']
            have hrec := ih (fuel - T.length) (by omega) t' ht'
            refine ⟨entOk_amp_build T _ hT hrec.1, ?_⟩
            intro p' hp
            rw [countSub_amp_entity p' T _ hp hT, countSub_amp_entity p' T _ hp hT,
              hrec.2 p' hp]
          · have hrec := ih fuel (by omega) t (entOk_tail _ _ hs)
            refine ⟨entOk_cons_ne c _ hc hrec.1, ?_⟩
            intro p' hp
            rw [countSub_cons_ne p' c _ hc, countSub_cons_ne p' c _ hc, hrec.2 p' hp]

/-- `replaceCR` is transparent on strings without carriage returns. -/
theorem replaceCR_fix (T : Str) (hT : '\r' ∉ T) : replaceCR T = T := by
  rw [replaceCR, show (T.map fun c => if c = '\r' then '\n' else c) = T.map id from ?_,
    List.map_id]
  refine List.map_congr_left ?_
  intro a ha
  rw [if_neg (fun he => hT (by rw [← he]; exact ha))]
  rfl

/-- `replaceCR` preserves the entity invariant and the entity counts. -/
theorem replaceCR_preserves : ∀ s, entOk s = true →
    entOk (replaceCR s) = true ∧
      ∀ p' ∈ tails3, countSub ('&' :: p') (replaceCR s) = countSub ('&' :: p') s := by
  suffices h : ∀ n s, s.length ≤ n → entOk s = true →
      entOk (replaceCR s) = true ∧
        ∀ p' ∈ tails3, countSub ('&' :: p') (replaceCR s) = countSub ('&' :: p') s by
    exact fun s => h s.length s le_rfl
  intro n
  induction n with
  | zero =>
    intro s hlen hs
    rcases s with _ | ⟨c, t⟩
    · exact ⟨rfl, fun _ _ => rfl⟩
    · simp at hlen
  | succ n ih =>
    intro s hlen hs
    rcases s with _ | ⟨c, t⟩
    · exact ⟨rfl, fun _ _ => rfl⟩
    · have hstep : replaceCR (c :: t) =
          (if c = '\r' then '\n' else c) :: replaceCR t := rfl
      by_cases hc : c = '&'
      · subst hc
        rcases entOk_amp_decomp t hs with ⟨T, t', hT, rfl, ht'⟩
        have hTlen := tails5_len T hT
        have hTr : '\r' ∉ T := by
          intro hm
          exact absurd ((tails5_chars T hT) _ hm) (by decide)
        have hsplit : replaceCR (T ++ t') = T ++ replaceCR t' := by
          rw [replaceCR, List.map_append, ← replaceCR, ← replaceCR, replaceCR_fix T hTr]
        rw [hstep, if_neg (by decide), hsplit]
        have hlen2 : t'.length ≤ n := by
          have := congrArg List.length (rfl : T ++ t' = T ++ t')
          simp only [List.length_cons, List.length_append] at hlen
          omega
        have hrec := ih t' hlen2 ht'
        refine ⟨entOk_amp_build T _ hT hrec.1, ?_⟩
        intro p' hp
        rw [countSub_amp_entity p' T _ hp hT, countSub_amp_entity p' T _ hp hT,
          hrec.2 p' hp]
      · have hlen2 : t.length ≤ n := by simp only [List.length_cons] at hlen; omega
        have hrec := ih t hlen2 (entOk_tail _ _ hs)
        have hc2 : (if c = '\r' then '\n' else c) ≠ '&' := by
          by_cases hr : c = '\r'
          · rw [if_pos hr]; decide
          · rw [if_neg hr]; exact hc
        rw [hstep]
        refine ⟨entOk_cons_ne _ _ hc2 hrec.1, ?_⟩
        intro p' hp
        rw [countSub_cons_ne p' _ _ hc2, countSub_cons_ne p' c _ hc, hrec.2 p' hp]

/-- A nonempty string with a safe head keeps `headSafe` under append. -/
theorem headSafe_append (Y X : Str)
    (h : ∃ d cs, Y = d :: cs ∧ d ∉ tailChars ∧ d ≠ '&') : headSafe (Y ++ X) := by
  rcases h with ⟨d, cs, rfl, h1, h2⟩
  exact ⟨h1, h2⟩

/-- What `delimClose` returns: the shortest newline-free non-empty
content followed by the delimiter. -/
theorem delimClose_spec (delim : Str) : ∀ s content rest,
    delimClose delim s = some (content, rest) →
    s = content ++ delim ++ rest ∧ content ≠ [] ∧ '\n' ∉ content := by
  intro s
  induction s with
  | nil => intro content rest h; exact absurd h (by rw [delimClose]; simp)
  | cons c t ih =>
    intro content rest h
    rw [delimClose] at h
    by_cases hnl : c = '\n'
    · rw [if_pos hnl] at h; exact absurd h (by simp)
    · rw [if_neg hnl] at h
      by_cases hpre : delim.isPrefixOf t = true
      · rw [if_pos hpre] at h
        simp only [Option.some.injEq, Prod.mk.injEq] at h
        obtain ⟨rfl, rfl⟩ := h
        rcases List.isPrefixOf_iff_prefix.1 hpre with ⟨u, hu⟩
        refine ⟨?_, by simp, by
          simp only [List.mem_singleton]
          exact fun he => hnl he.symm⟩
        rw [show (t.drop delim.length) = u from by rw [← hu, List.drop_left], ← hu]
        simp
      · rw [if_neg hpre] at h
        rcases hrec : delimClose delim t with _ | ⟨content', rest'⟩
        · rw [hrec] at h; cases h
        · rw [hrec] at h
          simp only [Option.some.injEq, Prod.mk.injEq] at h
          obtain ⟨rfl, rfl⟩ := h
          obtain ⟨hteq, hcne2, hcnl⟩ := ih content' rest' hrec
          refine ⟨by rw [hteq]; simp, by simp, ?_⟩
          intro hm
          rcases List.mem_cons.1 hm with he | hm2
          · exact hnl he.symm
          · exact hcnl hm2

/-- `delimSub` walks through entity-body characters unchanged. -/
theorem delimSub_tail_step (delim tagOpen tagClose : Str)
    (hdel : ∀ c ∈ delim, c = '*') (hdne : delim ≠ [])
    (T : Str) (hT : ∀ c ∈ T, c ∈ tailChars) :
    ∀ fuel t, delimSub delim tagOpen tagClose fuel (T ++ t) =
      T ++ delimSub delim tagOpen tagClose (fuel - T.length) t := by
  induction T with
  | nil => intro fuel t; simp
  | cons c T' ih =>
    intro fuel t
    cases fuel with
    | zero => rw [Nat.zero_sub]; rfl
    | succ fuel =>
      have hc := tailChars_facts c (hT c (List.mem_cons_self _ _))
      have hnpre : ¬ (delim.isPrefixOf (c :: (T' ++ t)) = true) := by
        intro hx
        rcases delim with _ | ⟨d0, dtl⟩
        · exact hdne rfl
        · have h1 : d0 = c := (List.cons_prefix_cons.1 (List.isPrefixOf_iff_prefix.1 hx)).1
          have h2 : d0 = '*' := hdel d0 (List.mem_cons_self _ _)
          exact hc.2.2.2 (by rw [← h1, h2])
      rw [List.cons_append, delimSub, if_neg hnpre]
      rw [ih (fun x hx => hT x (List.mem_cons_of_mem c hx)) fuel t]
      rw [List.length_cons, show fuel + 1 - (T'.length + 1) = fuel - T'.length from by omega]
      rfl

/-- `delimSub` preserves the entity invariant and the entity counts. -/
theorem delimSub_preserves (delim tagOpen tagClose : Str)
    (hdel : ∀ c ∈ delim, c = '*') (hdne : delim ≠ [])
    (htO : '&' ∉ tagOpen) (htC : '&' ∉ tagClose)
    (htCh : ∃ d cs, tagClose = d :: cs ∧ d ∉ tailChars ∧ d ≠ '&') :
    ∀ fuel s, entOk s = true →
      entOk (delimSub delim tagOpen tagClose fuel s) = true ∧
        ∀ p' ∈ tails3, countSub ('&' :: p') (delimSub delim tagOpen tagClose fuel s) =
          countSub ('&' :: p') s := by
  intro fuel
  induction fuel using Nat.strong_induction_on with
  | _ fuel ih =>
    intro s hs
    match fuel with
    | 0 => exact ⟨hs, fun _ _ => rfl⟩
    | fuel + 1 =>
      match s with
      | [] => exact ⟨rfl, fun _ _ => rfl⟩
      | c :: t =>
        have hdelim_no_amp : '&' ∉ delim := fun hm => absurd (hdel '&' hm) (by decide)
        by_cases hpre : delim.isPrefixOf (c :: t) = true
        · rcases hcl : delimClose delim (t.drop (delim.length - 1)) with _ | ⟨content, rest⟩
          · rw [show delimSub delim tagOpen tagClose (fuel + 1) (c :: t) =
                c :: delimSub delim tagOpen tagClose fuel t
              from by rw [delimSub, if_pos hpre, hcl]]
            have hc : c ≠ '&' := by
              rcases delim with _ | ⟨d0, dtl⟩
              · exact absurd rfl hdne
              · have h1 : d0 = c :=
                  (List.cons_prefix_cons.1 (List.isPrefixOf_iff_prefix.1 hpre)).1
                rw [← h1, hdel d0 (List.mem_cons_self _ _)]
                decide
            have hrec := ih fuel (by omega) t (entOk_tail _ _ hs)
            exact ⟨entOk_cons_ne c _ hc hrec.1,
              fun p' hp => by
                rw [countSub_cons_ne p' c _ hc, countSub_cons_ne p' c _ hc, hrec.2 p' hp]⟩
          · rw [show delimSub delim tagOpen tagClose (fuel + 1) (c :: t) =
                tagOpen ++ content ++ tagClose ++ delimSub delim tagOpen tagClose fuel rest
              from by rw [delimSub, if_pos hpre, hcl]]
            obtain ⟨hs1, hcne, hcnl⟩ := delimClose_spec delim _ content rest hcl
            have hs0 : (c :: t : Str) = delim ++ (content ++ (delim ++ rest)) := by
              rcases List.isPrefixOf_iff_prefix.1 hpre with ⟨u, hu⟩
              have hu2 : u = t.drop (delim.length - 1) := by
                have h3 : ((c :: t).drop delim.length) = u := by rw [← hu, List.drop_left]
                rcases delim with _ | ⟨d0, dtl⟩
                · exact absurd rfl hdne
                · simpa using h3.symm
              rw [← hu, hu2, hs1]
              simp [List.append_assoc]
            have hrest_suffix : rest <:+ c :: t := by
              rw [hs0]
              exact ⟨delim ++ content ++ delim, by simp [List.append_assoc]⟩
            have hrec := ih fuel (by omega) rest (entOk_suffix _ _ hrest_suffix hs)
            have hdelimHS : headSafe (delim ++ rest) := by
              rcases delim with _ | ⟨d0, dtl⟩
              · exact absurd rfl hdne
              · have h4 : d0 = '*' := hdel d0 (List.mem_cons_self _ _)
                subst h4
                exact ⟨by decide, by decide⟩
            constructor
            · have hctx : entOk (content ++ (delim ++ rest)) = true := by
                refine entOk_suffix _ _ ?_ hs
                rw [hs0]
                exact ⟨delim, rfl⟩
              have h5 : entOk (tagClose ++ delimSub delim tagOpen tagClose fuel rest) = true :=
                entOk_append_no_amp _ _ htC hrec.1
              have h6 := entOk_change_context content (delim ++ rest) _ hctx hdelimHS h5
              have h7 := entOk_append_no_amp tagOpen _ htO h6
              simpa [List.append_assoc] using h7
            · intro p' hp
              simp only [List.append_assoc]
              rw [countSub_append _ _ _ (noStraddle_of_no_amp p' _ _ htO),
                countSub_zero_of_no_amp p' _ htO, Nat.zero_add,
                countSub_append _ _ _ (noStraddle_of_headSafe p' _ _ (tails3_chars p' hp)
                  (headSafe_append tagClose _ htCh)),
                countSub_append _ _ _ (noStraddle_of_no_amp p' _ _ htC),
                countSub_zero_of_no_amp p' _ htC, Nat.zero_add, hrec.2 p' hp]
              rw [hs0,
                countSub_append _ _ _ (noStraddle_of_no_amp p' _ _ hdelim_no_amp),
                countSub_zero_of_no_amp p' _ hdelim_no_amp, Nat.zero_add,
                countSub_append _ _ _ (noStraddle_of_headSafe p' _ _ (tails3_chars p' hp)
                  hdelimHS),
                countSub_append _ _ _ (noStraddle_of_no_amp p' _ _ hdelim_no_amp),
                countSub_zero_of_no_amp p' _ hdelim_no_amp, Nat.zero_add]
        · rw [show delimSub delim tagOpen tagClose (fuel + 1) (c :: t) =
              c :: delimSub delim tagOpen tagClose fuel t
            from by rw [delimSub, if_neg hpre]]
          by_cases hc : c = '&'
          · subst hc
            rcases entOk_amp_decomp t hs with ⟨T, t', hT, rfl, ht'⟩
            rw [delimSub_tail_step delim tagOpen tagClose hdel hdne T
              (tails5_chars T hT) fuel t']
            have hrec := ih (fuel - T.length) (by omega) t' ht'
            refine ⟨entOk_amp_build T _ hT hrec.1, ?_⟩
            intro p' hp
            rw [countSub_amp_entity p' T _ hp hT, countSub_amp_entity p' T _ hp hT,
              hrec.2 p' hp]
          · have hrec := ih fuel (by omega) t (entOk_tail _ _ hs)
            exact ⟨entOk_cons_ne c _ hc hrec.1,
              fun p' hp => by
                rw [countSub_cons_ne p' c _ hc, countSub_cons_ne p' c _ hc, hrec.2 p' hp]⟩

/-- `hrSub` on the empty string. -/
theorem hrSub_nil (fuel : Nat) (flag : Bool) : hrSub fuel flag [] = [] := by
  cases fuel <;> rfl

/-- `hrSub` walks through entity-body characters unchanged. -/
theorem hrSub_tail_step (T : Str) (hT : ∀ c ∈ T, c ∈ tailChars) :
    ∀ fuel t, hrSub fuel false (T ++ t) = T ++ hrSub (fuel - T.length) false t := by
  induction T with
  | nil => intro fuel t; simp
  | cons c T' ih =>
    intro fuel t
    cases fuel with
    | zero => rw [Nat.zero_sub]; rfl
    | succ fuel =>
      have hc := tailChars_facts c (hT c (List.mem_cons_self _ _))
      rw [List.cons_append, hrSub, if_neg (by simp), if_neg (by simp [hc.2.1]),
        decide_eq_false hc.2.1]
      rw [ih (fun x hx => hT x (List.mem_cons_of_mem c hx)) fuel t]
      rw [List.length_cons, show fuel + 1 - (T'.length + 1) = fuel - T'.length from by omega]
      rfl

/-- `hrSub` preserves the entity invariant and the entity counts. -/
theorem hrSub_preserves : ∀ fuel flag s, entOk s = true →
    entOk (hrSub fuel flag s) = true ∧
      ∀ p' ∈ tails3, countSub ('&' :: p') (hrSub fuel flag s) = countSub ('&' :: p') s := by
  intro fuel
  induction fuel using Nat.strong_induction_on with
  | _ fuel ih =>
    intro flag s hs
    match fuel with
    | 0 => exact ⟨hs, fun _ _ => rfl⟩
    | fuel + 1 =>
      match s with
      | [] => exact ⟨rfl, fun _ _ => rfl⟩
      | c :: t =>
        by_cases h1 : (flag && decide (3 ≤ ((c :: t).takeWhile (fun x => x = '-')).length) &&
            nlOrEnd ((c :: t).dropWhile (fun x => x = '-'))) = true
        · rw [show hrSub (fuel + 1) flag (c :: t) =
              ['\n', '<', 'h', 'r', '>', '\n'] ++
                hrSub fuel true (((c :: t).dropWhile (fun x => x = '-')).tail)
            from by rw [hrSub, if_pos h1]]
          have hdec : (c :: t : Str) =
              (c :: t).takeWhile (fun x => x = '-') ++ (c :: t).dropWhile (fun x => x = '-') :=
            (List.takeWhile_append_dropWhile _ _).symm
          have hrun : '&' ∉ (c :: t).takeWhile (fun x => x = '-') :=
            no_amp_takeWhile _ (by decide) _
          have hnl : nlOrEnd ((c :: t).dropWhile (fun x => x = '-')) = true := by
            simp only [Bool.and_eq_true] at h1
            exact h1.2
          rcases hrest : (c :: t).dropWhile (fun x => x = '-') with _ | ⟨r0, r'⟩
          · rw [hrest] at hdec
            rw [List.tail_nil, hrSub_nil]
            refine ⟨entOk_append_no_amp _ _ (by decide) rfl, ?_⟩
            intro p' hp
            rw [countSub_append _ _ _ (noStraddle_of_no_amp p' _ _ (by decide)),
              countSub_zero_of_no_amp p' _ (by decide), Nat.zero_add]
            conv_rhs => rw [hdec]
            rw [List.append_nil, countSub_zero_of_no_amp p' _ hrun]
            rfl
          · have hr0 : r0 = '\n' := by
              rw [hrest] at hnl
              simpa [nlOrEnd] using hnl
            subst hr0
            rw [hrest] at hdec
            simp only [List.tail_cons]
            have hsufr : r' <:+ c :: t := by
              rw [hdec]
              exact ⟨(c :: t).takeWhile (fun x => x = '-') ++ ['\n'], by simp⟩
            have hrec := ih fuel (by omega) true r' (entOk_suffix _ _ hsufr hs)
            refine ⟨entOk_append_no_amp _ _ (by decide) hrec.1, ?_⟩
            intro p' hp
            rw [countSub_append _ _ _ (noStraddle_of_no_amp p' _ _ (by decide)),
              countSub_zero_of_no_amp p' _ (by decide), Nat.zero_add, hrec.2 p' hp]
            conv_rhs => rw [hdec]
            rw [countSub_append _ _ _ (noStraddle_of_no_amp p' _ _ hrun),
              countSub_zero_of_no_amp p' _ hrun, Nat.zero_add,
              countSub_cons_ne p' '\n' _ (by decide)]
        · by_cases h2 : (decide (c = '\n') &&
              decide (3 ≤ (t.takeWhile (fun x => x = '-')).length) &&
              nlOrEnd (t.dropWhile (fun x => x = '-'))) = true
          · rw [show hrSub (fuel + 1) flag (c :: t) =
                ['\n', '<', 'h', 'r', '>', '\n'] ++
                  hrSub fuel true ((t.dropWhile (fun x => x = '-')).tail)
              from by rw [hrSub, if_neg h1, if_pos h2]]
            have hc : c = '\n' := by
              simp only [Bool.and_eq_true, decide_eq_true_eq] at h2
              exact h2.1.1
            have hdec : (t : Str) =
                t.takeWhile (fun x => x = '-') ++ t.dropWhile (fun x => x = '-') :=
              (List.takeWhile_append_dropWhile _ _).symm
            have hrun : '&' ∉ t.takeWhile (fun x => x = '-') :=
              no_amp_takeWhile _ (by decide) _
            have hnl : nlOrEnd (t.dropWhile (fun x => x = '-')) = true := by
              simp only [Bool.and_eq_true] at h2
              exact h2.2
            rcases hrest : t.dropWhile (fun x => x = '-') with _ | ⟨r0, r'⟩
            · rw [hrest] at hdec
              rw [List.tail_nil, hrSub_nil]
              refine ⟨entOk_append_no_amp _ _ (by decide) rfl, ?_⟩
              intro p' hp
              rw [countSub_append _ _ _ (noStraddle_of_no_amp p' _ _ (by decide)),
                countSub_zero_of_no_amp p' _ (by decide), Nat.zero_add,
                countSub_cons_ne p' c _ (by rw [hc]; decide)]
              conv_rhs => rw [hdec]
              rw [List.append_nil, countSub_zero_of_no_amp p' _ hrun]
              rfl
            · have hr0 : r0 = '\n' := by
                rw [hrest] at hnl
                simpa [nlOrEnd] using hnl
              subst hr0
              rw [hrest] at hdec
              simp only [List.tail_cons]
              have hsufr : r' <:+ c :: t := by
                refine List.IsSuffix.trans ?_ (List.suffix_cons c t)
                rw [hdec]
                exact ⟨t.takeWhile (fun x => x = '-') ++ ['\n'], by simp⟩
              have hrec := ih fuel (by omega) true r' (entOk_suffix _ _ hsufr hs)
              refine ⟨entOk_append_no_amp _ _ (by decide) hrec.1, ?_⟩
              intro p' hp
              rw [countSub_append _ _ _ (noStraddle_of_no_amp p' _ _ (by decide)),
                countSub_zero_of_no_amp p' _ (by decide), Nat.zero_add, hrec.2 p' hp,
                countSub_cons_ne p' c _ (by rw [hc]; decide)]
              conv_rhs => rw [hdec]
              rw [countSub_append _ _ _ (noStraddle_of_no_amp p' _ _ hrun),
                countSub_zero_of_no_amp p' _ hrun, Nat.zero_add,
                countSub_cons_ne p' '\n' _ (by decide)]
          · rw [show hrSub (fuel + 1) flag (c :: t) = c :: hrSub fuel (c = '\n') t
              from by rw [hrSub, if_neg h1, if_neg h2]]
            by_cases hc : c = '&'
            · subst hc
              rcases entOk_amp_decomp t hs with ⟨T, t', hT, rfl, ht'⟩
              rw [show (decide ('&' = '\n')) = false from by decide]
              rw [hrSub_tail_step T (tails5_chars T hT) fuel t']
              have hrec := ih (fuel - T.length) (by omega) false t' ht'
              refine ⟨entOk_amp_build T _ hT hrec.1, ?_⟩
              intro p' hp
              rw [countSub_amp_entity p' T _ hp hT, countSub_amp_entity p' T _ hp hT,
                hrec.2 p' hp]
            · have hrec := ih fuel (by omega) (decide (c = '\n')) t (entOk_tail _ _ hs)
              exact ⟨entOk_cons_ne c _ hc hrec.1,
                fun p' hp => by
                  rw [countSub_cons_ne p' c _ hc, countSub_cons_ne p' c _ hc,
                    hrec.2 p' hp]⟩

/-- `headingSub` away from a line start walks through any character. -/
theorem headingSub_tail_step (marker tagOpen tagClose : Str) (T : Str)
    (hT : ∀ c ∈ T, c ∈ tailChars) :
    ∀ fuel t, headingSub marker tagOpen tagClose fuel false (T ++ t) =
      T ++ headingSub marker tagOpen tagClose (fuel - T.length) false t := by
  induction T with
  | nil => intro fuel t; simp
  | cons c T' ih =>
    intro fuel t
    cases fuel with
    | zero => rw [Nat.zero_sub]; rfl
    | succ fuel =>
      have hc := tailChars_facts c (hT c (List.mem_cons_self _ _))
      rw [List.cons_append, headingSub, if_neg (by simp), decide_eq_false hc.2.1]
      rw [ih (fun x hx => hT x (List.mem_cons_of_mem c hx)) fuel t]
      rw [List.length_cons, show fuel + 1 - (T'.length + 1) = fuel - T'.length from by omega]
      rfl

/-- `headingSub` preserves the entity invariant and the entity counts. -/
theorem headingSub_preserves (marker tagOpen tagClose : Str)
    (hmA : '&' ∉ marker) (htO : '&' ∉ tagOpen) (htC : '&' ∉ tagClose)
    (htCh : ∃ d cs, tagClose = d :: cs ∧ d ∉ tailChars ∧ d ≠ '&') :
    ∀ fuel flag s, entOk s = true →
      entOk (headingSub marker tagOpen tagClose fuel flag s) = true ∧
        ∀ p' ∈ tails3, countSub ('&' :: p') (headingSub marker tagOpen tagClose fuel flag s) =
          countSub ('&' :: p') s := by
  intro fuel
  induction fuel using Nat.strong_induction_on with
  | _ fuel ih =>
    intro flag s hs
    match fuel with
    | 0 => exact ⟨hs, fun _ _ => rfl⟩
    | fuel + 1 =>
      match s with
      | [] => exact ⟨rfl, fun _ _ => rfl⟩
      | c :: t =>
        have hkeep : ∀ hshow : headingSub marker tagOpen tagClose (fuel + 1) flag (c :: t) =
              c :: headingSub marker tagOpen tagClose fuel (decide (c = '\n')) t,
            entOk (headingSub marker tagOpen tagClose (fuel + 1) flag (c :: t)) = true ∧
              ∀ p' ∈ tails3,
                countSub ('&' :: p')
                    (headingSub marker tagOpen tagClose (fuel + 1) flag (c :: t)) =
                  countSub ('&' :: p') (c :: t) := by
          intro hshow
          rw [hshow]
          by_cases hc : c = '&'
          · subst hc
            rcases entOk_amp_decomp t hs with ⟨T, t', hT, rfl, ht'⟩
            rw [show (decide ('&' = '\n')) = false from by decide]
            rw [headingSub_tail_step marker tagOpen tagClose T (tails5_chars T hT) fuel t']
            have hrec := ih (fuel - T.length) (by omega) false t' ht'
            refine ⟨entOk_amp_build T _ hT hrec.1, ?_⟩
            intro p' hp
            rw [countSub_amp_entity p' T _ hp hT, countSub_amp_entity p' T _ hp hT,
              hrec.2 p' hp]
          · have hrec := ih fuel (by omega) (decide (c = '\n')) t (entOk_tail _ _ hs)
            exact ⟨entOk_cons_ne c _ hc hrec.1,
              fun p' hp => by
                rw [countSub_cons_ne p' c _ hc, countSub_cons_ne p' c _ hc, hrec.2 p' hp]⟩
        cases flag with
        | false => exact hkeep (by rw [headingSub, if_neg (by simp)])
        | true =>
          by_cases hpre : marker.isPrefixOf ((c :: t).dropWhile isPySpace) = true
          · rw [show headingSub marker tagOpen tagClose (fuel + 1) true (c :: t) =
                tagOpen ++
                  ((((c :: t).dropWhile isPySpace).drop marker.length).takeWhile
                    (fun x => x ≠ '\n')) ++
                  tagClose ++
                  headingSub marker tagOpen tagClose fuel false
                    ((((c :: t).dropWhile isPySpace).drop marker.length).dropWhile
                      (fun x => x ≠ '\n'))
              from by rw [headingSub, if_pos rfl, if_pos hpre]]
            rcases List.isPrefixOf_iff_prefix.1 hpre with ⟨r2, hr2⟩
            have hr2eq : (((c :: t).dropWhile isPySpace).drop marker.length) = r2 := by
              rw [← hr2, List.drop_left]
            rw [hr2eq]
            have hdec0 : (c :: t : Str) =
                (c :: t).takeWhile isPySpace ++ (c :: t).dropWhile isPySpace :=
              (List.takeWhile_append_dropWhile _ _).symm
            have hdec2 : r2 = r2.takeWhile (fun x => x ≠ '\n') ++
                r2.dropWhile (fun x => x ≠ '\n') :=
              (List.takeWhile_append_dropWhile _ _).symm
            have hw_no_amp : '&' ∉ (c :: t).takeWhile isPySpace :=
              no_amp_takeWhile _ (by decide) _
            have hr2suf : r2 <:+ c :: t := by
              refine List.IsSuffix.trans ?_ ⟨(c :: t).takeWhile isPySpace, hdec0.symm⟩
              rw [← hr2]
              exact ⟨marker, rfl⟩
            have hrest_suf : r2.dropWhile (fun x => x ≠ '\n') <:+ c :: t :=
              (List.dropWhile_suffix _).trans hr2suf
            have hrec := ih fuel (by omega) false _ (entOk_suffix _ _ hrest_suf hs)
            constructor
            · have hctx : entOk (r2.takeWhile (fun x => x ≠ '\n') ++
                  r2.dropWhile (fun x => x ≠ '\n')) = true := by
                rw [← hdec2]
                exact entOk_suffix _ _ hr2suf hs
              have h5 : entOk (tagClose ++ headingSub marker tagOpen tagClose fuel false
                  (r2.dropWhile (fun x => x ≠ '\n'))) = true :=
                entOk_append_no_amp _ _ htC hrec.1
              have h6 := entOk_change_context (r2.takeWhile (fun x => x ≠ '\n'))
                (r2.dropWhile (fun x => x ≠ '\n')) _ hctx (headSafe_dropNl r2) h5
              have h7 := entOk_append_no_amp tagOpen _ htO h6
              simpa [List.append_assoc] using h7
            · intro p' hp
              simp only [List.append_assoc]
              rw [countSub_append _ _ _ (noStraddle_of_no_amp p' _ _ htO),
                countSub_zero_of_no_amp p' _ htO, Nat.zero_add,
                countSub_append _ _ _ (noStraddle_of_headSafe p' _ _ (tails3_chars p' hp)
                  (headSafe_append tagClose _ htCh)),
                countSub_append _ _ _ (noStraddle_of_no_amp p' _ _ htC),
                countSub_zero_of_no_amp p' _ htC, Nat.zero_add, hrec.2 p' hp]
              conv_rhs => rw [hdec0, ← hr2, hdec2]
              rw [countSub_append _ _ _ (noStraddle_of_no_amp p' _ _ hw_no_amp),
                countSub_zero_of_no_amp p' _ hw_no_amp, Nat.zero_add,
                countSub_append _ _ _ (noStraddle_of_no_amp p' _ _ hmA),
                countSub_zero_of_no_amp p' _ hmA, Nat.zero_add,
                countSub_append _ _ _ (noStraddle_of_headSafe p' _ _ (tails3_chars p' hp)
                  (headSafe_dropNl r2))]
          · exact hkeep (by rw [headingSub, if_pos rfl, if_neg hpre])

/-- `liSub` away from a line start walks through any character. -/
theorem liSub_tail_step (T : Str) (hT : ∀ c ∈ T, c ∈ tailChars) :
    ∀ fuel t, liSub fuel false (T ++ t) = T ++ liSub (fuel - T.length) false t := by
  induction T with
  | nil => intro fuel t; simp
  | cons c T' ih =>
    intro fuel t
    cases fuel with
    | zero => rw [Nat.zero_sub]; rfl
    | succ fuel =>
      have hc := tailChars_facts c (hT c (List.mem_cons_self _ _))
      rw [List.cons_append, liSub, if_neg (by simp), decide_eq_false hc.2.1]
      rw [ih (fun x hx => hT x (List.mem_cons_of_mem c hx)) fuel t]
      rw [List.length_cons, show fuel + 1 - (T'.length + 1) = fuel - T'.length from by omega]
      rfl

/-- `liSub` preserves the entity invariant and the entity counts. -/
theorem liSub_preserves : ∀ fuel flag s, entOk s = true →
    entOk (liSub fuel flag s) = true ∧
      ∀ p' ∈ tails3, countSub ('&' :: p') (liSub fuel flag s) = countSub ('&' :: p') s := by
  intro fuel
  induction fuel using Nat.strong_induction_on with
  | _ fuel ih =>
    intro flag s hs
    match fuel with
    | 0 => exact ⟨hs, fun _ _ => rfl⟩
    | fuel + 1 =>
      match s with
      | [] => exact ⟨rfl, fun _ _ => rfl⟩
      | c :: t =>
        by_cases h1 : (flag && ((c :: t).dropWhile isPySpace).head? == some '-' &&
            !((((c :: t).dropWhile isPySpace).tail.takeWhile isPySpace).isEmpty) &&
            !((((c :: t).dropWhile isPySpace).tail.dropWhile isPySpace).isEmpty)) = true
        · rw [show liSub (fuel + 1) flag (c :: t) =
              ['<', 'l', 'i', '>'] ++
                ((((c :: t).dropWhile isPySpace).tail.dropWhile isPySpace).takeWhile
                  (fun x => x ≠ '\n')) ++
                ['<', '/', 'l', 'i', '>'] ++
                liSub fuel false
                  ((((c :: t).dropWhile isPySpace).tail.dropWhile isPySpace).dropWhile
                    (fun x => x ≠ '\n'))
            from by rw [liSub, if_pos h1]]
          have hhead : ((c :: t).dropWhile isPySpace).head? = some '-' := by
            simp only [Bool.and_eq_true, beq_iff_eq] at h1
            exact h1.1.1.2
          rcases hr1 : (c :: t).dropWhile isPySpace with _ | ⟨d0, r1t⟩
          · rw [hr1] at hhead
            simp at hhead
          · rw [hr1] at hhead
            have hd0 : d0 = '-' := by simpa using hhead
            subst hd0
            simp only [List.tail_cons]
            have hdec0 : (c :: t : Str) =
                (c :: t).takeWhile isPySpace ++ ('-' :: r1t) := by
              conv_lhs => rw [← List.takeWhile_append_dropWhile isPySpace (c :: t)]
              rw [hr1]
            have hdecW : r1t = r1t.takeWhile isPySpace ++ r1t.dropWhile isPySpace :=
              (List.takeWhile_append_dropWhile _ _).symm
            have hdec2 : r1t.dropWhile isPySpace =
                (r1t.dropWhile isPySpace).takeWhile (fun x => x ≠ '\n') ++
                  (r1t.dropWhile isPySpace).dropWhile (fun x => x ≠ '\n') :=
              (List.takeWhile_append_dropWhile _ _).symm
            have hw1 : '&' ∉ (c :: t).takeWhile isPySpace :=
              no_amp_takeWhile _ (by decide) _
            have hw2 : '&' ∉ r1t.takeWhile isPySpace :=
              no_amp_takeWhile _ (by decide) _
            have hr3suf : r1t.dropWhile isPySpace <:+ c :: t := by
              refine List.IsSuffix.trans (List.dropWhile_suffix _) ?_
              refine List.IsSuffix.trans ?_ ⟨(c :: t).takeWhile isPySpace, hdec0.symm⟩
              exact ⟨['-'], rfl⟩
            have hrest_suf :
                (r1t.dropWhile isPySpace).dropWhile (fun x => x ≠ '\n') <:+ c :: t :=
              (List.dropWhile_suffix _).trans hr3suf
            have hrec := ih fuel (by omega) false _ (entOk_suffix _ _ hrest_suf hs)
            constructor
            · have hctx : entOk ((r1t.dropWhile isPySpace).takeWhile (fun x => x ≠ '\n') ++
                  (r1t.dropWhile isPySpace).dropWhile (fun x => x ≠ '\n')) = true := by
                rw [← hdec2]
                exact entOk_suffix _ _ hr3suf hs
              have h5 : entOk (['<', '/', 'l', 'i', '>'] ++ liSub fuel false
                  ((r1t.dropWhile isPySpace).dropWhile (fun x => x ≠ '\n'))) = true :=
                entOk_append_no_amp _ _ (by decide) hrec.1
              have h6 := entOk_change_context _ _ _ hctx (headSafe_dropNl _) h5
              have h7 := entOk_append_no_amp ['<', 'l', 'i', '>'] _ (by decide) h6
              simpa [List.append_assoc] using h7
            · intro p' hp
              simp only [List.append_assoc]
              rw [countSub_append _ ['<', 'l', 'i', '>'] _
                  (noStraddle_of_no_amp p' ['<', 'l', 'i', '>'] _ (by decide)),
                countSub_zero_of_no_amp p' ['<', 'l', 'i', '>'] (by decide), Nat.zero_add,
                countSub_append _ _ _ (noStraddle_of_headSafe p' _ _ (tails3_chars p' hp)
                  (headSafe_append ['<', '/', 'l', 'i', '>'] _
                    ⟨'<', _, rfl, by decide, by decide⟩)),
                countSub_append _ ['<', '/', 'l', 'i', '>'] _
                  (noStraddle_of_no_amp p' ['<', '/', 'l', 'i', '>'] _ (by decide)),
                countSub_zero_of_no_amp p' ['<', '/', 'l', 'i', '>'] (by decide),
                Nat.zero_add, hrec.2 p' hp]
              conv_rhs => rw [hdec0]
              rw [countSub_append _ _ _ (noStraddle_of_no_amp p' _ _ hw1),
                countSub_zero_of_no_amp p' _ hw1, Nat.zero_add,
                countSub_cons_ne p' '-' _ (by decide)]
              conv_rhs => rw [hdecW]
              rw [countSub_append _ _ _ (noStraddle_of_no_amp p' _ _ hw2),
                countSub_zero_of_no_amp p' _ hw2, Nat.zero_add]
              conv_rhs => rw [hdec2]
              rw [countSub_append _ _ _ (noStraddle_of_headSafe p' _ _ (tails3_chars p' hp)
                (headSafe_dropNl _))]
        · rw [show liSub (fuel + 1) flag (c :: t) = c :: liSub fuel (decide (c = '\n')) t
            from by rw [liSub, if_neg h1]]
          by_cases hc : c = '&'
          · subst hc
            rcases entOk_amp_decomp t hs with ⟨T, t', hT, rfl, ht'⟩
            rw [show (decide ('&' = '\n')) = false from by decide]
            rw [liSub_tail_step T (tails5_chars T hT) fuel t']
            have hrec := ih (fuel - T.length) (by omega) false t' ht'
            refine ⟨entOk_amp_build T _ hT hrec.1, ?_⟩
            intro p' hp
            rw [countSub_amp_entity p' T _ hp hT, countSub_amp_entity p' T _ hp hT,
              hrec.2 p' hp]
          · have hrec := ih fuel (by omega) (decide (c = '\n')) t (entOk_tail _ _ hs)
            exact ⟨entOk_cons_ne c _ hc hrec.1,
              fun p' hp => by
                rw [countSub_cons_ne p' c _ hc, countSub_cons_ne p' c _ hc, hrec.2 p' hp]⟩

/-- The tracked bodies are short. -/
theorem tails3_len : ∀ p ∈ tails3, p.length ≤ 5 := by decide

/-- What `liClose` returns: the content up to the first `</li>`. -/
theorem liClose_spec : ∀ s content rest, liClose s = some (content, rest) →
    s = content ++ ['<', '/', 'l', 'i', '>'] ++ rest := by
  intro s
  induction s with
  | nil => intro content rest h; exact absurd h (by rw [liClose]; simp)
  | cons c t ih =>
    intro content rest h
    rw [liClose] at h
    by_cases hpre : ((['<', '/', 'l', 'i', '>'] : Str).isPrefixOf (c :: t)) = true
    · rw [if_pos hpre] at h
      simp only [Option.some.injEq, Prod.mk.injEq] at h
      obtain ⟨rfl, rfl⟩ := h
      rcases List.isPrefixOf_iff_prefix.1 hpre with ⟨u, hu⟩
      rw [show ((c :: t).drop 5) = u from by
        rw [← hu]; simpa using List.drop_left (['<', '/', 'l', 'i', '>'] : Str) u, ← hu]
      simp
    · rw [if_neg hpre] at h
      rcases hrec : liClose t with _ | ⟨content', rest'⟩
      · rw [hrec] at h; cases h
      · rw [hrec] at h
        simp only [Option.some.injEq, Prod.mk.injEq] at h
        obtain ⟨rfl, rfl⟩ := h
        rw [show t = content' ++ ['<', '/', 'l', 'i', '>'] ++ rest' from ih content' rest' hrec]
        simp

/-- `ulChain` never matches unless the text starts with `<li>`. -/
theorem ulChain_none_of_head (c : Char) (hc : c ≠ '<') :
    ∀ fuel t, ulChain fuel (c :: t) = none := by
  intro fuel t
  cases fuel with
  | zero => rfl
  | succ fuel =>
    rw [ulChain, if_neg ?_]
    intro hx
    exact hc ((List.cons_prefix_cons.1 (List.isPrefixOf_iff_prefix.1 hx)).1).symm

/-- What `ulChain` returns: the matched chain is an initial segment of
the text and ends with `</li>` or with `</li>` and a newline. -/
theorem ulChain_spec : ∀ fuel s chain rest, ulChain fuel s = some (chain, rest) →
    s = chain ++ rest ∧
      ∃ X, chain = X ++ ['<', '/', 'l', 'i', '>'] ∨
        chain = X ++ ['<', '/', 'l', 'i', '>', '\n'] := by
  intro fuel
  induction fuel with
  | zero => intro s chain rest h; exact absurd h (by rw [ulChain]; simp)
  | succ fuel ih =>
    intro s chain rest h
    rw [ulChain] at h
    by_cases hpre : ((['<', 'l', 'i', '>'] : Str).isPrefixOf s) = true
    · rw [if_pos hpre] at h
      rcases hcl : liClose (s.drop 4) with _ | ⟨content, rest0⟩
      · rw [hcl] at h; cases h
      · rw [hcl] at h
        simp only [] at h
        have hs4 : s.drop 4 = content ++ ['<', '/', 'l', 'i', '>'] ++ rest0 :=
          liClose_spec _ content rest0 hcl
        have hs0 : s = ['<', 'l', 'i', '>'] ++
            (content ++ ['<', '/', 'l', 'i', '>'] ++ rest0) := by
          rcases List.isPrefixOf_iff_prefix.1 hpre with ⟨u, hu⟩
          have hu4 : u = s.drop 4 := by
            rw [← hu]; simpa using (List.drop_left (['<', 'l', 'i', '>'] : Str) u).symm
          rw [← hu, hu4, hs4]
        by_cases hnl : (rest0.head? == some '\n') = true
        · rw [if_pos hnl] at h
          rcases rest0 with _ | ⟨r0, rt⟩
          · simp at hnl
          · have hr0 : r0 = '\n' := by simpa using hnl
            subst hr0
            simp only [List.tail_cons] at h
            rcases hrec : ulChain fuel rt with _ | ⟨chain', rest3⟩
            · rw [hrec] at h
              simp only [Option.some.injEq, Prod.mk.injEq] at h
              obtain ⟨rfl, rfl⟩ := h
              refine ⟨by rw [hs0]; simp [List.append_assoc], ?_⟩
              exact ⟨['<', 'l', 'i', '>'] ++ content, Or.inr (by simp [List.append_assoc])⟩
            · rw [hrec] at h
              simp only [Option.some.injEq, Prod.mk.injEq] at h
              obtain ⟨rfl, rfl⟩ := h
              obtain ⟨hrt, X', hX'⟩ := ih rt chain' rest3 hrec
              refine ⟨by rw [hs0, hrt]; simp [List.append_assoc], ?_⟩
              rcases hX' with h' | h'
              · exact ⟨['<', 'l', 'i', '>'] ++ content ++ ['<', '/', 'l', 'i', '>'] ++
                  '\n' :: X', Or.inl (by rw [h']; simp [List.append_assoc])⟩
              · exact ⟨['<', 'l', 'i', '>'] ++ content ++ ['<', '/', 'l', 'i', '>'] ++
                  '\n' :: X', Or.inr (by rw [h']; simp [List.append_assoc])⟩
        · rw [if_neg hnl] at h
          rcases hrec : ulChain fuel rest0 with _ | ⟨chain', rest3⟩
          · rw [hrec] at h
            simp only [Option.some.injEq, Prod.mk.injEq] at h
            obtain ⟨rfl, rfl⟩ := h
            refine ⟨by rw [hs0]; simp [List.append_assoc], ?_⟩
            exact ⟨['<', 'l', 'i', '>'] ++ content, Or.inl (by simp [List.append_assoc])⟩
          · rw [hrec] at h
            simp only [Option.some.injEq, Prod.mk.injEq] at h
            obtain ⟨rfl, rfl⟩ := h
            obtain ⟨hrt, X', hX'⟩ := ih rest0 chain' rest3 hrec
            refine ⟨by rw [hs0, hrt]; simp [List.append_assoc], ?_⟩
            rcases hX' with h' | h'
            · exact ⟨['<', 'l', 'i', '>'] ++ content ++ ['<', '/', 'l', 'i', '>'] ++ X',
                Or.inl (by rw [h']; simp [List.append_assoc])⟩
            · exact ⟨['<', 'l', 'i', '>'] ++ content ++ ['<', '/', 'l', 'i', '>'] ++ X',
                Or.inr (by rw [h']; simp [List.append_assoc])⟩
    · rw [if_neg hpre] at h
      cases h

/-- A matched chain is an initial segment ending with an `&`-free block
of length at least 5. -/
theorem ulChain_decomp (fuel : Nat) (s chain rest : Str)
    (h : ulChain fuel s = some (chain, rest)) :
    s = chain ++ rest ∧
      ∃ X E, chain = X ++ E ∧ '&' ∉ E ∧ 4 ≤ E.length ∧ 5 ≤ E.length := by
  obtain ⟨hseq, X, hX⟩ := ulChain_spec fuel s chain rest h
  refine ⟨hseq, ?_⟩
  rcases hX with h' | h'
  · exact ⟨X, ['<', '/', 'l', 'i', '>'], h', by decide, by decide, by decide⟩
  · exact ⟨X, ['<', '/', 'l', 'i', '>', '\n'], h', by decide, by decide, by decide⟩

/-- `ulSub` away from the start of a line is transparent to entity-body
characters. -/
theorem ulSub_tail_step (T : Str) (hT : ∀ c ∈ T, c ∈ tailChars) :
    ∀ fuel t, ulSub fuel false (T ++ t) = T ++ ulSub (fuel - T.length) false t := by
  induction T with
  | nil => intro fuel t; simp
  | cons c T' ih =>
    intro fuel t
    cases fuel with
    | zero => rw [Nat.zero_sub]; rfl
    | succ fuel =>
      have hc := tailChars_facts c (hT c (List.mem_cons_self _ _))
      rw [List.cons_append, ulSub, if_neg (by simp), if_neg hc.2.1]
      rw [ih (fun x hx => hT x (List.mem_cons_of_mem c hx)) fuel t]
      rw [List.length_cons, show fuel + 1 - (T'.length + 1) = fuel - T'.length from by omega]
      rfl

/-- `ulSub` preserves the entity invariant and the entity counts. -/
theorem ulSub_preserves : ∀ fuel flag s, entOk s = true →
    entOk (ulSub fuel flag s) = true ∧
      ∀ p' ∈ tails3, countSub ('&' :: p') (ulSub fuel flag s) = countSub ('&' :: p') s := by
  intro fuel
  induction fuel using Nat.strong_induction_on with
  | _ fuel ih =>
    intro flag s hs
    match fuel with
    | 0 => exact ⟨hs, fun _ _ => rfl⟩
    | fuel + 1 =>
      match s with
      | [] => exact ⟨rfl, fun _ _ => rfl⟩
      | c :: t =>
        have hKeep : ulSub (fuel + 1) flag (c :: t) = c :: ulSub fuel false t →
            entOk (ulSub (fuel + 1) flag (c :: t)) = true ∧
              ∀ p' ∈ tails3, countSub ('&' :: p') (ulSub (fuel + 1) flag (c :: t)) =
                countSub ('&' :: p') (c :: t) := by
          intro heq
          rw [heq]
          by_cases hc : c = '&'
          · subst hc
            rcases entOk_amp_decomp t hs with ⟨T, t', hT, rfl, ht'⟩
            rw [ulSub_tail_step T (tails5_chars T hT) fuel t']
            have hrec := ih (fuel - T.length) (by omega) false t' ht'
            refine ⟨entOk_amp_build T _ hT hrec.1, ?_⟩
            intro p' hp
            rw [countSub_amp_entity p' T _ hp hT, countSub_amp_entity p' T _ hp hT,
              hrec.2 p' hp]
          · have hrec := ih fuel (by omega) false t (entOk_tail _ _ hs)
            refine ⟨entOk_cons_ne c _ hc hrec.1, ?_⟩
            intro p' hp
            rw [countSub_cons_ne p' c _ hc, countSub_cons_ne p' c _ hc, hrec.2 p' hp]
        have hMB : ∀ chain rest, ulChain t.length t = some (chain, rest) → c = '\n' →
            ulSub (fuel + 1) flag (c :: t) =
              ['<', 'u', 'l', '>'] ++ '\n' :: chain ++ ['<', '/', 'u', 'l', '>'] ++
                ulSub fuel false rest →
            entOk (ulSub (fuel + 1) flag (c :: t)) = true ∧
              ∀ p' ∈ tails3, countSub ('&' :: p') (ulSub (fuel + 1) flag (c :: t)) =
                countSub ('&' :: p') (c :: t) := by
          intro chain rest hch hcnl heq
          obtain ⟨hseq, X0, E0, hA, hE, hlen4, hlen5⟩ :=
            ulChain_decomp t.length t chain rest hch
          rw [heq]
          have hrest_ok : entOk rest = true := by
            have h0 := entOk_tail c t hs
            rw [hseq] at h0
            exact entOk_suffix _ _ ⟨chain, rfl⟩ h0
          have hrec := ih fuel (by omega) false rest hrest_ok
          constructor
          · simp only [List.append_assoc]
            refine entOk_append_no_amp _ _ (by decide) ?_
            rw [List.cons_append '\n' chain]
            refine entOk_cons_ne '\n' _ (by decide) ?_
            rw [hA]
            refine entOk_change_contextE X0 E0 rest _ ?_ hE hlen4
              (entOk_append_no_amp _ _ (by decide) hrec.1)
            have h0 := entOk_tail c t hs
            rw [hseq, hA] at h0
            exact h0
          · intro p' hp
            simp only [List.append_assoc]
            rw [countSub_append _ ['<', 'u', 'l', '>'] _
                (noStraddle_of_no_amp p' _ _ (by decide)),
              countSub_zero_of_no_amp p' ['<', 'u', 'l', '>'] (by decide), Nat.zero_add,
              List.cons_append '\n' chain (['<', '/', 'u', 'l', '>'] ++ ulSub fuel false rest),
              countSub_cons_ne p' '\n' _ (by decide),
              countSub_append _ chain _ (noStraddle_of_lastE p' chain _ X0 E0 hA hE
                (Nat.le_trans (tails3_len p' hp) hlen5)),
              countSub_append _ ['<', '/', 'u', 'l', '>'] _
                (noStraddle_of_no_amp p' _ _ (by decide)),
              countSub_zero_of_no_amp p' ['<', '/', 'u', 'l', '>'] (by decide),
              Nat.zero_add, hrec.2 p' hp,
              countSub_cons_ne p' c _ (by rw [hcnl]; decide)]
            conv_rhs => rw [hseq]
            rw [countSub_append _ chain rest (noStraddle_of_lastE p' chain rest X0 E0 hA hE
              (Nat.le_trans (tails3_len p' hp) hlen5))]
        cases flag with
        | true =>
          rcases hchain : ulChain (c :: t).length (c :: t) with _ | ⟨chain, rest⟩
          · by_cases hcnl : c = '\n'
            · rcases hchain2 : ulChain t.length t with _ | ⟨chain2, rest2⟩
              · exact hKeep (by
                  rw [ulSub, if_pos rfl, hchain]
                  simp only []
                  rw [if_pos hcnl, hchain2])
              · exact hMB chain2 rest2 hchain2 hcnl (by
                  rw [ulSub, if_pos rfl, hchain]
                  simp only []
                  rw [if_pos hcnl, hchain2])
            · exact hKeep (by
                rw [ulSub, if_pos rfl, hchain]
                simp only []
                rw [if_neg hcnl])
          · obtain ⟨hseq, X0, E0, hA, hE, hlen4, hlen5⟩ :=
              ulChain_decomp (c :: t).length (c :: t) chain rest hchain
            rw [show ulSub (fuel + 1) true (c :: t) =
                ['<', 'u', 'l', '>'] ++ chain ++ ['<', '/', 'u', 'l', '>'] ++
                  ulSub fuel false rest
              from by rw [ulSub, if_pos rfl, hchain]]
            have hrest_ok : entOk rest = true := by
              have h0 := hs
              rw [hseq] at h0
              exact entOk_suffix _ _ ⟨chain, rfl⟩ h0
            have hrec := ih fuel (by omega) false rest hrest_ok
            constructor
            · simp only [List.append_assoc]
              refine entOk_append_no_amp _ _ (by decide) ?_
              rw [hA]
              refine entOk_change_contextE X0 E0 rest _ ?_ hE hlen4
                (entOk_append_no_amp _ _ (by decide) hrec.1)
              have h0 := hs
              rw [hseq, hA] at h0
              exact h0
            · intro p' hp
              simp only [List.append_assoc]
              rw [countSub_append _ ['<', 'u', 'l', '>'] _
                  (noStraddle_of_no_amp p' _ _ (by decide)),
                countSub_zero_of_no_amp p' ['<', 'u', 'l', '>'] (by decide), Nat.zero_add,
                countSub_append _ chain _ (noStraddle_of_lastE p' chain _ X0 E0 hA hE
                  (Nat.le_trans (tails3_len p' hp) hlen5)),
                countSub_append _ ['<', '/', 'u', 'l', '>'] _
                  (noStraddle_of_no_amp p' _ _ (by decide)),
                countSub_zero_of_no_amp p' ['<', '/', 'u', 'l', '>'] (by decide),
                Nat.zero_add, hrec.2 p' hp]
              conv_rhs => rw [hseq]
              rw [countSub_append _ chain rest (noStraddle_of_lastE p' chain rest X0 E0 hA hE
                (Nat.le_trans (tails3_len p' hp) hlen5))]
        | false =>
          by_cases hcnl : c = '\n'
          · rcases hchain2 : ulChain t.length t with _ | ⟨chain2, rest2⟩
            · exact hKeep (by
                rw [ulSub, if_neg (by simp), if_pos hcnl, hchain2])
            · exact hMB chain2 rest2 hchain2 hcnl (by
                rw [ulSub, if_neg (by simp), if_pos hcnl, hchain2])
          · exact hKeep (by
              rw [ulSub, if_neg (by simp), if_neg hcnl])

/-- The whole substitution chain preserves the entity invariant and the
tracked entity counts of the escaped text. -/
theorem md_stages_preserves (s : Str) (hs : entOk s = true) :
    entOk (md_stages s) = true ∧
      ∀ p' ∈ tails3, countSub ('&' :: p') (md_stages s) = countSub ('&' :: p') s := by
  have h1 := replaceCRLF_preserves s.length s hs
  have h2 := replaceCR_preserves (replaceCRLF s.length s) h1.1
  set s1 : Str := replaceCR (replaceCRLF s.length s)
  have h3 := headingSub_preserves "### ".toList "<h3>".toList "</h3>".toList
    (by decide) (by decide) (by decide) ⟨'<', _, rfl, by decide, by decide⟩
    s1.length true s1 h2.1
  set s2 : Str := headingSub "### ".toList "<h3>".toList "</h3>".toList s1.length true s1
  have h4 := headingSub_preserves "## ".toList "<h2>".toList "</h2>".toList
    (by decide) (by decide) (by decide) ⟨'<', _, rfl, by decide, by decide⟩
    s2.length true s2 h3.1
  set s3 : Str := headingSub "## ".toList "<h2>".toList "</h2>".toList s2.length true s2
  have h5 := hrSub_preserves s3.length true s3 h4.1
  set s4 : Str := hrSub s3.length true s3
  have h6 := delimSub_preserves "**".toList "<b>".toList "</b>".toList
    (by decide) (by decide) (by decide) (by decide) ⟨'<', _, rfl, by decide, by decide⟩
    s4.length s4 h5.1
  set s5 : Str := delimSub "**".toList "<b>".toList "</b>".toList s4.length s4
  have h7 := delimSub_preserves "*".toList "<i>".toList "</i>".toList
    (by decide) (by decide) (by decide) (by decide) ⟨'<', _, rfl, by decide, by decide⟩
    s5.length s5 h6.1
  set s6 : Str := delimSub "*".toList "<i>".toList "</i>".toList s5.length s5
  have h8 := liSub_preserves s6.length true s6 h7.1
  set s7 : Str := liSub s6.length true s6
  have h9 := ulSub_preserves s7.length true s7 h8.1
  set s8 : Str := ulSub s7.length true s7
  have h10 := brSub_preserves s8.length s8 h9.1
  refine ⟨?_, ?_⟩
  · exact h10.1
  · intro p' hp
    calc countSub ('&' :: p') (md_stages s) = countSub ('&' :: p') s8 := h10.2 p' hp
      _ = countSub ('&' :: p') s7 := h9.2 p' hp
      _ = countSub ('&' :: p') s6 := h8.2 p' hp
      _ = countSub ('&' :: p') s5 := h7.2 p' hp
      _ = countSub ('&' :: p') s4 := h6.2 p' hp
      _ = countSub ('&' :: p') s3 := h5.2 p' hp
      _ = countSub ('&' :: p') s2 := h4.2 p' hp
      _ = countSub ('&' :: p') s1 := h3.2 p' hp
      _ = countSub ('&' :: p') (replaceCRLF s.length s) := h2.2 p' hp
      _ = countSub ('&' :: p') s := h1.2 p' hp

/-- Claim C7: the text stored for the bot message is HTML-safe.
`markdown_to_html` escapes its whole input before any markdown
substitution runs (on non-empty input it is exactly the substitution
chain applied to the escaped text), and the substitution stages neither
consume nor fabricate escaped characters: the number of `&lt;`, `&gt;`
and `&amp;` occurrences in the rendered text equals the number of raw
`<`, `>` and `&` characters in the input, and every `&` of the rendered
text opens one of the five escape entities — so every raw `<`, `>`, `&`
of the tool response appears escaped in the stored text, and the only
unescaped tags are the ones the renderer itself introduces.  The user
message text is stored by the POST handler as the raw stripped query,
unescaped. -/
theorem markdown_to_html_safe (text : Str) :
    (text ≠ [] → markdown_to_html text = md_stages (escape text)) ∧
    countSub ampLt (markdown_to_html text) = text.count '<' ∧
    countSub ampGt (markdown_to_html text) = text.count '>' ∧
    countSub ampAmp (markdown_to_html text) = text.count '&' ∧
    entOk (markdown_to_html text) = true ∧
    ∀ (hist : List (List (Str × PJson))) (q r : Str) (i : Option Str), pyStrip q ≠ [] →
      post_update hist q (Except.ok (r, i)) =
        hist ++ [user_message (pyStrip q), bot_message r i] ∧
      user_message (pyStrip q) =
        [("role".toList, PJson.jstr "user".toList),
         ("text".toList, PJson.jstr (pyStrip q))] := by
  have huser : ∀ (hist : List (List (Str × PJson))) (q r : Str) (i : Option Str),
      pyStrip q ≠ [] →
      post_update hist q (Except.ok (r, i)) =
        hist ++ [user_message (pyStrip q), bot_message r i] ∧
      user_message (pyStrip q) =
        [("role".toList, PJson.jstr "user".toList),
         ("text".toList, PJson.jstr (pyStrip q))] := by
    intro hist q r i hq
    refine ⟨?_, rfl⟩
    unfold post_update
    rw [if_neg hq]
  by_cases htext : text = []
  · subst htext
    exact ⟨fun h => absurd rfl h, rfl, rfl, rfl, rfl, huser⟩
  · have hmd : markdown_to_html text = md_stages (escape text) := by
      rw [markdown_to_html, if_neg htext]
    have hst := md_stages_preserves (escape text) (entOk_escape text)
    refine ⟨fun _ => hmd, ?_, ?_, ?_, ?_, huser⟩
    · rw [show ampLt = '&' :: ['l', 't', ';'] from rfl, hmd,
        hst.2 ['l', 't', ';'] (by decide)]
      exact countSub_escape ['l', 't', ';'] (by decide) '<' (by decide) text
    · rw [show ampGt = '&' :: ['g', 't', ';'] from rfl, hmd,
        hst.2 ['g', 't', ';'] (by decide)]
      exact countSub_escape ['g', 't', ';'] (by decide) '>' (by decide) text
    · rw [show ampAmp = '&' :: ['a', 'm', 'p', ';'] from rfl, hmd,
        hst.2 ['a', 'm', 'p', ';'] (by decide)]
      exact countSub_escape ['a', 'm', 'p', ';'] (by decide) '&' (by decide) text
    · rw [hmd]
      exact hst.1

/-- Witness for C7: a concrete input with a raw `<`, and a concrete POST
append. -/
theorem markdown_to_html_safe_witness :
    markdown_to_html ['a', '<', 'b'] = md_stages (escape ['a', '<', 'b']) ∧
    countSub ampLt (markdown_to_html ['a', '<', 'b']) = 1 ∧
    post_update [] ['h', 'i'] (Except.ok (['o', 'k'], none)) =
      [user_message ['h', 'i'], bot_message ['o', 'k'] none] := by
  have h := markdown_to_html_safe ['a', '<', 'b']
  refine ⟨h.1 (by decide), ?_, ?_⟩
  · rw [h.2.1]; decide
  · rw [(h.2.2.2.2.2 [] ['h', 'i'] ['o', 'k'] none (by decide)).1]
    rfl

end FinBot
